import Mathlib

/-!
Verification development for the Habits repository (a habit tracker).

The analytics core transforms a sparse per-day completion record into
derived series: an exponential-moving-average score, history buckets,
streaks, and a calendar grid with a staged-edit overlay.

Modelling conventions (shallow embedding of the TypeScript source):
* A JavaScript `Date` at local midnight is represented by a `Date`
  structure carrying the local calendar components `(year, month, day)`;
  ordering and differences of such values (`getTime` comparisons,
  millisecond differences divided by 86400000) are mediated by the
  rata-die number `rd`, the count of days since the proleptic Gregorian
  epoch.  `setDate(+1)` is `nextDay`, `setDate(-k)` is `subDays`,
  `setFullYear(y-k)` (with the JS rollover of Feb 29 in a non-leap
  target year) is `yearsBefore`.  `getDay()` equals `rd % 7` because
  rata die 1, the first of January of year 1, is a Monday.
* A day-key string `YYYY-MM-DD` (produced by `formatDate` in
  `src/lib/utils.ts`, zero-padded, local time) is represented by its
  parsed `Date`.  For four-digit years the lexicographic order of the
  key strings coincides with the lexicographic order on
  `(year, month, day)`, which `lexLe` implements; `Object.keys(..).sort()`
  is therefore `List.mergeSort lexLe` (JS sort is stable, as is
  `mergeSort`).
* A JS object acting as a map is an association list; object spread
  `{...o, [k]: v}` preserves the position of an existing key and appends
  a fresh key (`setKey`), `delete o[k]` removes the entry (`delKey`).
* A completion marker `boolean | number` is `Marker`; `undefined` is
  the absence of the key (`Option.none`).  JS truthiness of a marker is
  `truthy` (`NaN` markers are not modelled).
* Floating-point score arithmetic is modelled over `ℝ`.
-/

namespace Habits

/-! ### Completion markers (`src/types.ts`: `CompletionRecord` values) -/

/-- A completion marker: `boolean` for YES_NO habits, `number` for
measurable or legacy imported values (`boolean | number` in
`src/types.ts`). -/
inductive Marker where
  | bool (b : Bool)
  | num (n : Int)
deriving DecidableEq, Repr

/-- JS truthiness of a marker: `false` and `0` are falsy, everything
else stored in a record is truthy. -/
def truthy : Marker → Bool
  | .bool b => b
  | .num n => decide (n ≠ 0)

/-- JS truthiness of `record[key]` where a missing key is `undefined`,
hence falsy. -/
def truthyOpt : Option Marker → Bool
  | none => false
  | some m => truthy m

/-- The repeated source test `val === true || val === 1 || val === 2`:
a day is "done" iff its marker is the boolean `true` or the legacy
numeric codes `1` or `2`. -/
def isDone : Marker → Bool
  | .bool b => b
  | .num n => decide (n = 1 ∨ n = 2)

/-- Done-status of an optional marker (missing key means not done). -/
def isDoneOpt : Option Marker → Bool
  | none => false
  | some m => isDone m

/-! ### Local calendar dates -/

/-- A local calendar day, the parsed form of a `YYYY-MM-DD` day-key and
the day component of a JS `Date` at local midnight. -/
structure Date where
  year : ℕ
  month : ℕ
  day : ℕ
deriving DecidableEq, Repr

/-- Gregorian leap-year test. -/
def isLeap (y : ℕ) : Bool := (y % 4 == 0 && y % 100 != 0) || y % 400 == 0

/-- Cumulative day count before month `m` in a non-leap year
(month 13 closes the year at 365). -/
def monthOffset (m : ℕ) : ℕ :=
  match m with
  | 1 => 0 | 2 => 31 | 3 => 59 | 4 => 90 | 5 => 120 | 6 => 151
  | 7 => 181 | 8 => 212 | 9 => 243 | 10 => 273 | 11 => 304 | 12 => 334
  | _ => 365

/-- Cumulative day count before month `m`, adjusted for a leap year. -/
def daysBeforeMonth (leap : Bool) (m : ℕ) : ℕ :=
  monthOffset m + (if 3 ≤ m ∧ leap = true then 1 else 0)

/-- Number of days of month `m` in a year with leap-status `leap`. -/
def daysInMonthL (leap : Bool) (m : ℕ) : ℕ :=
  daysBeforeMonth leap (m + 1) - daysBeforeMonth leap m

/-- Number of days of month `m` of year `y` (the source computes this as
`new Date(y, m, 0).getDate()`). -/
def daysInMonth (y m : ℕ) : ℕ := daysInMonthL (isLeap y) m

/-- Number of leap years strictly before year `y` (from year 1 on). -/
def leapsBefore (y : ℕ) : ℕ := (y - 1) / 4 - (y - 1) / 100 + (y - 1) / 400

/-- Rata-die number of a date: day 1 is the first of January of year 1.
This mediates every `getTime` comparison and day difference of the
source. -/
def rd (d : Date) : ℕ :=
  365 * (d.year - 1) + leapsBefore d.year + daysBeforeMonth (isLeap d.year) d.month + d.day

/-- A date is valid when its components denote an actual calendar day. -/
def Date.Valid (d : Date) : Prop :=
  1 ≤ d.year ∧ 1 ≤ d.month ∧ d.month ≤ 12 ∧ 1 ≤ d.day ∧ d.day ≤ daysInMonth d.year d.month

instance (d : Date) : Decidable d.Valid := by unfold Date.Valid; infer_instance

/-- The following local calendar day; models `setDate(getDate() + 1)`. -/
def nextDay (d : Date) : Date :=
  if d.day < daysInMonth d.year d.month then ⟨d.year, d.month, d.day + 1⟩
  else if d.month < 12 then ⟨d.year, d.month + 1, 1⟩
  else ⟨d.year + 1, 1, 1⟩

/-- The preceding local calendar day; models `setDate(getDate() - 1)`. -/
def prevDay (d : Date) : Date :=
  if 1 < d.day then ⟨d.year, d.month, d.day - 1⟩
  else if 1 < d.month then ⟨d.year, d.month - 1, daysInMonth d.year (d.month - 1)⟩
  else ⟨d.year - 1, 12, 31⟩

/-- Advancing a date by `n` days; models `setDate(getDate() + n)`. -/
def addDays (d : Date) : ℕ → Date
  | 0 => d
  | n + 1 => addDays (nextDay d) n

/-- Moving a date back by `n` days; models `setDate(getDate() - n)`. -/
def subDays (d : Date) : ℕ → Date
  | 0 => d
  | n + 1 => subDays (prevDay d) n

/-- The JS `setFullYear(getFullYear() - k)` operation: keep month and
day, rolling a Feb 29 over into March 1 when the target year is not a
leap year. -/
def yearsBefore (k : ℕ) (d : Date) : Date :=
  let y := d.year - k
  if d.day ≤ daysInMonth y d.month then ⟨y, d.month, d.day⟩
  else ⟨y, d.month + 1, d.day - daysInMonth y d.month⟩

/-- Lexicographic order on dates; for four-digit years this is exactly
the lexicographic order of the zero-padded `YYYY-MM-DD` key strings,
so `Object.keys(..).sort()` sorts by it. -/
def lexLe (a b : Date) : Bool :=
  decide (a.year < b.year ∨ (a.year = b.year ∧ (a.month < b.month ∨
    (a.month = b.month ∧ a.day ≤ b.day))))

/-- The ascending day-key order as a relation, for the sort.  JS
`Array.prototype.sort` is stable, and for a total transitive comparator
every stable sort yields the same list, so it is modelled by the
(stable) insertion sort. -/
def dateLe (a b : Date) : Prop := lexLe a b = true

instance : DecidableRel dateLe := fun a b => by unfold dateLe; infer_instance

/-- Day difference used by the streak detector:
`Math.round(Math.abs(curr - prev) / 86400000)` on millisecond clock
values, which for local midnights is the absolute rata-die
difference. -/
def diffDays (a b : Date) : ℕ := ((rd b : ℤ) - (rd a : ℤ)).natAbs

/-! ### JS objects as association lists -/

/-- Reading `l[k]`: the value at the first matching key, `undefined`
(`none`) when absent. -/
def lookupKey {κ α : Type} [DecidableEq κ] : List (κ × α) → κ → Option α
  | [], _ => none
  | e :: rest, k => if e.1 = k then some e.2 else lookupKey rest k

/-- Writing `{...l, [k]: v}`: an existing key keeps its position and has
its value overwritten, a fresh key is appended at the end. -/
def setKey {κ α : Type} [DecidableEq κ] (l : List (κ × α)) (k : κ) (v : α) : List (κ × α) :=
  if (lookupKey l k).isSome then l.map (fun e => if e.1 = k then (k, v) else e)
  else l ++ [(k, v)]

/-- The `delete l[k]` operation. -/
def delKey {κ α : Type} [DecidableEq κ] (l : List (κ × α)) (k : κ) : List (κ × α) :=
  l.filter (fun e => !decide (e.1 = k))

/-- The key list `Object.keys(l)`. -/
def keysOf {κ α : Type} (l : List (κ × α)) : List κ := l.map Prod.fst

/-- A completion map of one habit: day-key to marker
(`CompletionRecord` in `src/types.ts`). -/
abbrev CompletionRecord := List (Habits.Date × Marker)

/-- The top-level `completions` object: habit id to completion record.
Habit ids (uuid strings in the source) are numbered abstractly. -/
abbrev Completions := List (ℕ × CompletionRecord)

/-! ### The single mutation entrypoint (`toggleCompletion` in `src/App.tsx`) -/

/-- Effect of `toggleCompletion` on the record of the selected habit:
`newStatus = !currentVal`; the key is set to the boolean `true` when
`newStatus` is `true`, otherwise the transient `false` entry written by
the spread is immediately deleted by the cleanup branch, so the net
effect is removal of the key. -/
def toggleRecord (c : CompletionRecord) (date : Habits.Date) : CompletionRecord :=
  let newStatus := ! truthyOpt (lookupKey c date)
  if newStatus then setKey c date (.bool true) else delKey c date

/-- `toggleCompletion(habitId, date)` from `src/App.tsx`: rebuilds the
completions object with the selected habit record toggled at `date`
(`prev.completions[habitId] || {}` supplies an empty record for an
unknown habit id). -/
def toggleCompletion (st : Completions) (habitId : ℕ) (date : Habits.Date) : Completions :=
  setKey st habitId (toggleRecord ((lookupKey st habitId).getD []) date)

/-! ### The staged-edit overlay (`StatsView`: `pendingEdits`) -/

/-- The EDITING branch of `handleToggle`: the effective value is the
overlay entry when the key is present (`prev[dateStr] !== undefined`),
otherwise the authoritative entry; the flipped value is stored as
`true` when truthy and the overlay key is deleted otherwise. -/
def overlayToggle (completions prev : CompletionRecord) (dateStr : Habits.Date) :
    CompletionRecord :=
  let currentVal := if (lookupKey prev dateStr).isSome
    then lookupKey prev dateStr else lookupKey completions dateStr
  let newVal := ! truthyOpt currentVal
  if newVal then setKey prev dateStr (.bool true) else delKey prev dateStr

/-- `handleDoneEditing` replays `Object.keys(pendingEdits)` through
`onToggle`, which is the authoritative `toggleCompletion` of the
selected habit; at record level each replayed key is a `toggleRecord`. -/
def commitPendingEdits (completions : CompletionRecord) (pendingKeys : List Habits.Date) :
    CompletionRecord :=
  pendingKeys.foldl (fun acc d => toggleRecord acc d) completions

/-- Committing the overlay itself: replay its key list. -/
def commitOverlay (completions pendingEdits : CompletionRecord) : CompletionRecord :=
  commitPendingEdits completions (keysOf pendingEdits)

/-! ### The calendar day button (`StatsView` render, disabled guard) -/

/-- Edit-session state of `StatsView`: the `isEditingCalendar` flag and
the `pendingEdits` overlay. -/
structure EditSession where
  isEditingCalendar : Bool
  pendingEdits : CompletionRecord

/-- The `disabled` expression of a calendar cell button:
`(isFuture) || (!isToday && !isEditingCalendar)`, where `isToday` and
`isFuture` compare midnight clock values. -/
def dayDisabled (editing : Bool) (today cell : Habits.Date) : Bool :=
  decide (rd today < rd cell) || (!decide (rd cell = rd today) && !editing)

/-- `handleToggle(dateStr)`: in EDITING the toggle is staged in the
overlay and the authoritative record is untouched; otherwise the
authoritative record is toggled immediately.  Returns the pair
(authoritative record, overlay). -/
def handleToggle (completions : CompletionRecord) (es : EditSession) (dateStr : Habits.Date) :
    CompletionRecord × CompletionRecord :=
  if es.isEditingCalendar then (completions, overlayToggle completions es.pendingEdits dateStr)
  else (toggleRecord completions dateStr, es.pendingEdits)

/-- A click on a calendar cell: a disabled button does nothing,
otherwise `handleToggle` runs. -/
def calendarDayClick (completions : CompletionRecord) (es : EditSession)
    (today cell : Habits.Date) : CompletionRecord × CompletionRecord :=
  if dayDisabled es.isEditingCalendar today cell then (completions, es.pendingEdits)
  else handleToggle completions es cell

/-! ### Score engine (`computeScore` / `allScores` / `score` in `StatsView`) -/

/-- `computeScore(frequency, previousScore, checkmarkValue)`:
the Loop habit score recurrence over ideal reals. -/
noncomputable def computeScore (frequency previousScore checkmarkValue : ℝ) : ℝ :=
  let multiplier := (0.5 : ℝ) ^ (Real.sqrt frequency / 13)
  previousScore * multiplier + checkmarkValue * (1 - multiplier)

/-- The constant multiplier `Math.pow(0.5, Math.sqrt(frequency) / 13.0)`
pre-computed by `allScores` for the fixed daily frequency `1.0`. -/
noncomputable def multiplier : ℝ := (0.5 : ℝ) ^ (Real.sqrt 1 / 13)

/-- `Object.keys(completions).sort()`: all day-keys in ascending
(string-lexicographic, hence date) order. -/
def sortKeys (c : CompletionRecord) : List Habits.Date :=
  (keysOf c).insertionSort dateLe

/-- The day loop of `allScores`: starting at `cur` with previous score
`s`, walk while `current <= today`, each day applying the inlined
recurrence and recording the value under the current day-key.  The fuel
argument only serves termination and is chosen large enough that the
`rd cur ≤ rd today` test alone ends the walk. -/
noncomputable def scoreWalk (c : CompletionRecord) (today : Habits.Date) :
    Habits.Date → ℝ → ℕ → List (Habits.Date × ℝ)
  | _, _, 0 => []
  | cur, s, fuel + 1 =>
    if rd cur ≤ rd today then
      let checkmarkValue : ℝ := if isDoneOpt (lookupKey c cur) then 1 else 0
      let s2 := s * multiplier + checkmarkValue * (1 - multiplier)
      (cur, s2) :: scoreWalk c today (nextDay cur) s2 fuel
    else []

/-- `allScores`: the chronological score map from the earliest key of
the completion record through today, empty when the record has no
keys. -/
noncomputable def allScores (c : CompletionRecord) (today : Habits.Date) :
    List (Habits.Date × ℝ) :=
  match sortKeys c with
  | [] => []
  | first :: _ => scoreWalk c today first 0 (rd today + 1 - rd first)

/-- The reported overview score:
`Math.round((allScores[todayStr] || 0) * 100)`. -/
noncomputable def score (c : CompletionRecord) (today : Habits.Date) : ℤ :=
  round (((lookupKey (allScores c today) today).getD 0) * 100)

/-! ### Overview total (`totalCompletions`) -/

/-- `Object.values(completions).filter(done).length`. -/
def totalCompletions (c : CompletionRecord) : ℕ :=
  ((c.map Prod.snd).filter isDone).length

/-! ### Streak detector (`streaks` in `StatsView`) -/

/-- A streak row `{start, end, length}` (the `end` field is `endD`
because `end` is reserved). -/
structure Streak where
  start : Habits.Date
  endD : Habits.Date
  length : ℕ
deriving DecidableEq, Repr

/-- Done day-keys: `Object.keys(completions).filter(d => done)`. -/
def doneKeys (c : CompletionRecord) : List Habits.Date :=
  (keysOf c).filter (fun k => isDoneOpt (lookupKey c k))

/-- Done day-keys in ascending order
(`.sort((a,b) => a.localeCompare(b))`). -/
def sortedDoneKeys (c : CompletionRecord) : List Habits.Date :=
  (doneKeys c).insertionSort dateLe

/-- The loop body of the streak walk: `cur` is the open streak whose
`endD` is the previously visited key; a day difference of exactly 1
extends it, any other difference closes it and opens a fresh one. -/
def streakGo (cur : Streak) : List Habits.Date → List Streak
  | [] => [cur]
  | x :: xs =>
    if diffDays cur.endD x = 1 then streakGo ⟨cur.start, x, cur.length + 1⟩ xs
    else cur :: streakGo ⟨x, x, 1⟩ xs

/-- All closed streaks in visit order (the `result` array before the
final sort and truncation); empty input yields an empty list. -/
def rawStreaks (c : CompletionRecord) : List Streak :=
  match sortedDoneKeys c with
  | [] => []
  | d :: rest => streakGo ⟨d, d, 1⟩ rest

/-- The comparator `(a, b) => b.length - a.length`: `a` may precede `b`
iff `b.length ≤ a.length` (descending by length; JS sort is stable and
so is the insertion sort modelling it). -/
def lenDescRel (a b : Streak) : Prop := b.length ≤ a.length

instance : DecidableRel lenDescRel := fun a b => Nat.decLe b.length a.length

instance : IsTotal Streak lenDescRel := ⟨fun a b => Nat.le_total b.length a.length⟩

instance : IsTrans Streak lenDescRel := ⟨fun _ _ _ h1 h2 => Nat.le_trans h2 h1⟩

/-- `streaks`: closed streaks sorted by length descending (stable,
ties keep visiting order) and truncated to the top 5. -/
def streaks (c : CompletionRecord) : List Streak :=
  ((rawStreaks c).insertionSort lenDescRel).take 5

/-! ### History aggregator (`historyData` in `StatsView`) -/

/-- The four supported history granularities. -/
inductive HistoryRange where
  | WEEKLY | MONTHLY | QUARTERLY | YEARLY
deriving DecidableEq, Repr

/-- The computed start year of the YEARLY / QUARTERLY / MONTHLY
branches: the year of the first done completion (today for an empty
record), clamped by the safety line `startYear = Math.max(startYear,
2000)`. -/
def startYearOf (c : CompletionRecord) (today : Habits.Date) : ℕ :=
  let sy := match sortedDoneKeys c with
    | [] => today.year
    | f :: _ => f.year
  max sy 2000

/-- Count of done days falling in year `y` (the YEARLY pre-bucketing by
the `YYYY` prefix of the key). -/
def yearCount (dates : List Habits.Date) (y : ℕ) : ℕ :=
  dates.countP (fun d => decide (d.year = y))

/-- YEARLY branch: one bucket per year from the clamped start year
through the current year. -/
def yearlyData (c : CompletionRecord) (today : Habits.Date) : List ℕ :=
  let sy := startYearOf c today
  (List.range (today.year + 1 - sy)).map (fun i => yearCount (sortedDoneKeys c) (sy + i))

/-- Count of done days in quarter `q` of year `y`; the quarter of month
`m` is `Math.ceil(m / 3) = (m + 2) / 3`. -/
def quarterCount (dates : List Habits.Date) (y q : ℕ) : ℕ :=
  dates.countP (fun d => decide (d.year = y ∧ (d.month + 2) / 3 = q))

/-- The QUARTERLY while loop: from `(startYear, 1)` up to
`(endY, endQ)`, stepping quarters and rolling into the next year after
quarter 4. -/
def quarterWalk (dates : List Habits.Date) (endY endQ : ℕ) : ℕ → ℕ → ℕ → List ℕ
  | _, _, 0 => []
  | y, q, fuel + 1 =>
    if y < endY ∨ (y = endY ∧ q ≤ endQ) then
      quarterCount dates y q ::
        (if q < 4 then quarterWalk dates endY endQ y (q + 1) fuel
         else quarterWalk dates endY endQ (y + 1) 1 fuel)
    else []

/-- QUARTERLY branch; the current quarter is
`Math.floor(getMonth() / 3) + 1 = (month - 1) / 3 + 1`. -/
def quarterlyData (c : CompletionRecord) (today : Habits.Date) : List ℕ :=
  let sy := startYearOf c today
  quarterWalk (sortedDoneKeys c) today.year ((today.month - 1) / 3 + 1) sy 1
    (4 * (today.year + 1 - sy) + 8)

/-- Count of done days in month `(y, m)` (the MONTHLY pre-bucketing by
the `YYYY-MM` prefix of the key). -/
def monthCount (dates : List Habits.Date) (y m : ℕ) : ℕ :=
  dates.countP (fun d => decide (d.year = y ∧ d.month = m))

/-- The MONTHLY while loop: month-firsts from `(startYear, Jan)` while
`currentD <= endD` (midnight clock comparison, hence `rd`), stepping
`setMonth(getMonth() + 1)` with its December rollover. -/
def monthWalk (dates : List Habits.Date) (today : Habits.Date) : ℕ → ℕ → ℕ → List ℕ
  | _, _, 0 => []
  | y, m, fuel + 1 =>
    if rd ⟨y, m, 1⟩ ≤ rd today then
      monthCount dates y m ::
        (if m < 12 then monthWalk dates today y (m + 1) fuel
         else monthWalk dates today (y + 1) 1 fuel)
    else []

/-- MONTHLY branch. -/
def monthlyData (c : CompletionRecord) (today : Habits.Date) : List ℕ :=
  let sy := startYearOf c today
  monthWalk (sortedDoneKeys c) today sy 1 (12 * (today.year + 1 - sy) + 24)

/-- The Monday-alignment step `day === 0 ? 6 : day - 1` on
`getDay() = rd % 7`. -/
def mondayDelta (d : Habits.Date) : ℕ := if rd d % 7 = 0 then 6 else rd d % 7 - 1

/-- Monday on or before `d` (both the WEEKLY history branch and the
calendar grid use this alignment). -/
def mondayOnOrBefore (d : Habits.Date) : Habits.Date := subDays d (mondayDelta d)

/-- Count of done days inside the week starting at `weekStart`
(`date >= currentDate && date <= endOfWeek`). -/
def weekCount (dates : List Habits.Date) (weekStart : Habits.Date) : ℕ :=
  dates.countP (fun dd => decide (rd weekStart ≤ rd dd ∧ rd dd ≤ rd weekStart + 6))

/-- The WEEKLY while loop: week starts stepping by 7 days while
`currentDate <= today`. -/
def weekWalk (dates : List Habits.Date) (today : Habits.Date) : Habits.Date → ℕ → List ℕ
  | _, 0 => []
  | cur, fuel + 1 =>
    if rd cur ≤ rd today then weekCount dates cur :: weekWalk dates today (addDays cur 7) fuel
    else []

/-- The WEEKLY computed start: Monday on or before the earlier of one
year before today and the first done completion. -/
def weeklyStart (c : CompletionRecord) (today : Habits.Date) : Habits.Date :=
  let base := yearsBefore 1 today
  let s := match sortedDoneKeys c with
    | [] => base
    | f :: _ => if rd f < rd base then f else base
  mondayOnOrBefore s

/-- WEEKLY branch. -/
def weeklyData (c : CompletionRecord) (today : Habits.Date) : List ℕ :=
  weekWalk (sortedDoneKeys c) today (weeklyStart c today)
    (rd today + 1 - rd (weeklyStart c today))

/-- `historyData` for a selected granularity.  Bucket labels are
presentational and not modelled; each entry is the bucket count. -/
def historyData (g : HistoryRange) (c : CompletionRecord) (today : Habits.Date) : List ℕ :=
  match g with
  | .WEEKLY => weeklyData c today
  | .MONTHLY => monthlyData c today
  | .QUARTERLY => quarterlyData c today
  | .YEARLY => yearlyData c today

/-- Number of calendar periods from the computed (clamped) start
through today, inclusive, stated from the spec wording of the dense
series property.  This is the claim-side count the aggregator is
compared against. -/
def specPeriods (g : HistoryRange) (c : CompletionRecord) (today : Habits.Date) : ℕ :=
  match g with
  | .YEARLY => today.year + 1 - startYearOf c today
  | .QUARTERLY => 4 * (today.year - startYearOf c today) + ((today.month - 1) / 3 + 1)
  | .MONTHLY => 12 * (today.year - startYearOf c today) + today.month
  | .WEEKLY => (rd today - rd (weeklyStart c today)) / 7 + 1

/-! ### Calendar grid (`weeks` useMemo in `StatsView`) -/

/-- The computed range start of the calendar grid: one year back by
default, the earliest key (done or not) when earlier, clamped to at
most three years back. -/
def rangeStart (c : CompletionRecord) (today : Habits.Date) : Habits.Date :=
  let start0 := yearsBefore 1 today
  match sortKeys c with
  | [] => start0
  | first :: _ =>
    let s1 := if rd first < rd start0 then first else start0
    if rd s1 < rd (yearsBefore 3 today) then yearsBefore 3 today else s1

/-- One rendered week: 7 consecutive days pushed by the inner loop. -/
def week7 (cur : Habits.Date) : List Habits.Date :=
  [cur, addDays cur 1, addDays cur 2, addDays cur 3, addDays cur 4, addDays cur 5, addDays cur 6]

/-- The outer while loop of the grid builder: weeks while
`current <= end && safetyCounter < 1000`; the safety counter is the
fuel. -/
def buildWeeks (endD : Habits.Date) : Habits.Date → ℕ → List (List Habits.Date)
  | _, 0 => []
  | cur, fuel + 1 =>
    if rd cur ≤ rd endD then week7 cur :: buildWeeks endD (addDays cur 7) fuel
    else []

/-- The full calendar grid: Monday-aligned weeks from the range start
through 14 days past today. -/
def calendarWeeks (c : CompletionRecord) (today : Habits.Date) : List (List Habits.Date) :=
  buildWeeks (addDays today 14) (mondayOnOrBefore (rangeStart c today)) 1000

/-- The effective value consulted by the EDITING toggle:
`prev[dateStr] !== undefined ? prev[dateStr] : completions[dateStr]`. -/
def effectiveVal (completions prev : CompletionRecord) (d : Habits.Date) : Option Marker :=
  if (lookupKey prev d).isSome then lookupKey prev d else lookupKey completions d

/-- Concrete inputs exercising the two failure modes of claim C2. -/
def c2auth : CompletionRecord := [(⟨2024, 1, 1⟩, .bool true)]

/-- Overlay already holding the key with value `true` over an empty
authoritative record. -/
def c2overlay : CompletionRecord := [(⟨2024, 1, 1⟩, .bool true)]

/-- The record of one habit inside the top-level completions object
(`prev.completions[habitId] || {}`). -/
def habitRecord (st : Completions) (habitId : ℕ) : CompletionRecord :=
  (lookupKey st habitId).getD []

/-- C3 counterexample inputs: the authoritative record has 2024-01-01
done, and the overlay maps that day to exactly its authoritative
done-state (`true`). -/
def c3auth : CompletionRecord := [(⟨2024, 1, 1⟩, .bool true)]

/-- The overlay of the C3 counterexample. -/
def c3overlay : CompletionRecord := [(⟨2024, 1, 1⟩, .bool true)]

/-- Scenario B input: 2024-01-01 through 2024-01-05 all `true`,
2024-01-06 absent. -/
def scenarioB : CompletionRecord :=
  [(⟨2024, 1, 1⟩, .bool true), (⟨2024, 1, 2⟩, .bool true), (⟨2024, 1, 3⟩, .bool true),
   (⟨2024, 1, 4⟩, .bool true), (⟨2024, 1, 5⟩, .bool true)]

/-- Scenario A record: a single completion on 2024-01-01. -/
def scenarioA : CompletionRecord := [(⟨2024, 1, 1⟩, .bool true)]

/-! ## Calendar arithmetic lemmas -/

theorem daysBeforeMonth_step : ∀ (l : Bool), ∀ m < 13, 1 ≤ m →
    daysBeforeMonth l m + daysInMonthL l m = daysBeforeMonth l (m + 1) := by decide

theorem daysInMonthL_pos : ∀ (l : Bool), ∀ m < 13, 1 ≤ m → 1 ≤ daysInMonthL l m := by decide

theorem daysInMonthL_le : ∀ (l : Bool), ∀ m < 13, daysInMonthL l m ≤ 31 := by decide

theorem daysBeforeMonth_mono : ∀ (l : Bool), ∀ n < 14, ∀ m ≤ n, 1 ≤ m →
    daysBeforeMonth l m ≤ daysBeforeMonth l n := by decide

/-- Unfolding equation of `rd` on a literal date. -/
theorem rd_mk (y m day : ℕ) : rd ⟨y, m, day⟩ =
    365 * (y - 1) + leapsBefore y + daysBeforeMonth (isLeap y) m + day := rfl

theorem daysInMonth_def (y m : ℕ) : daysInMonth y m = daysInMonthL (isLeap y) m := rfl

/-- Validity of a literal date from componentwise bounds. -/
theorem valid_mk (y m day : ℕ) (h1 : 1 ≤ y) (h2 : 1 ≤ m) (h3 : m ≤ 12) (h4 : 1 ≤ day)
    (h5 : day ≤ daysInMonthL (isLeap y) m) : (⟨y, m, day⟩ : Habits.Date).Valid :=
  ⟨h1, h2, h3, h4, h5⟩

theorem valid_parts (d : Habits.Date) (h : d.Valid) :
    1 ≤ d.year ∧ 1 ≤ d.month ∧ d.month ≤ 12 ∧ 1 ≤ d.day ∧
      d.day ≤ daysInMonthL (isLeap d.year) d.month := h

theorem daysBeforeMonth_year : ∀ (l : Bool), ∀ m < 13,
    daysBeforeMonth l (m + 1) ≤ 365 + (if l then 1 else 0) := by decide

theorem daysBeforeMonth_le : ∀ (l : Bool), ∀ m < 14, daysBeforeMonth l m ≤ 366 := by decide

theorem daysBeforeMonth_diff : ∀ (l1 l2 : Bool), ∀ m < 14,
    daysBeforeMonth l1 m ≤ daysBeforeMonth l2 m + 1 := by decide

theorem daysBeforeMonth_one : ∀ (l : Bool), daysBeforeMonth l 1 = 0 := by decide

theorem daysBeforeMonth_twelve : ∀ (l : Bool),
    daysBeforeMonth l 12 + 31 = 365 + (if l then 1 else 0) := by decide

theorem daysInMonthL_twelve : ∀ (l : Bool), daysInMonthL l 12 = 31 := by decide

theorem daysInMonthL_eq_of_ne_two : ∀ (l1 l2 : Bool), ∀ m < 13, ¬ (m = 2) →
    daysInMonthL l1 m = daysInMonthL l2 m := by decide

theorem daysInMonthL_two : ∀ (l : Bool), daysInMonthL l 2 = 28 + (if l then 1 else 0) := by
  decide

theorem isLeap_iff (y : ℕ) :
    isLeap y = true ↔ ((y % 4 = 0 ∧ ¬ (y % 100 = 0)) ∨ y % 400 = 0) := by
  simp [isLeap, Bool.or_eq_true, Bool.and_eq_true, beq_iff_eq, bne_iff_ne]

theorem leapsBefore_succ (y : ℕ) (hy : 1 ≤ y) :
    leapsBefore (y + 1) = leapsBefore y + (if isLeap y then 1 else 0) := by
  by_cases hb : isLeap y = true
  · rw [if_pos hb]
    have h := (isLeap_iff y).mp hb
    unfold leapsBefore
    omega
  · rw [if_neg hb]
    have h : ¬ ((y % 4 = 0 ∧ ¬ (y % 100 = 0)) ∨ y % 400 = 0) :=
      fun hh => hb ((isLeap_iff y).mpr hh)
    unfold leapsBefore
    omega

theorem leapsBefore_mono {a b : ℕ} (h : a ≤ b) : leapsBefore a ≤ leapsBefore b := by
  unfold leapsBefore
  omega

/-- Unfolding equation of `rd` on an arbitrary date. -/
theorem rd_def (d : Habits.Date) : rd d = 365 * (d.year - 1) + leapsBefore d.year
    + daysBeforeMonth (isLeap d.year) d.month + d.day := rfl

/-- Advancing one day adds one to the rata-die number and preserves
validity. -/
theorem rd_nextDay (d : Habits.Date) (h : d.Valid) :
    rd (nextDay d) = rd d + 1 ∧ (nextDay d).Valid := by
  obtain ⟨h1, h2, h3, h4, h5⟩ := valid_parts d h
  have hrd := rd_def d
  unfold nextDay
  rw [daysInMonth_def]
  by_cases hd : d.day < daysInMonthL (isLeap d.year) d.month
  · rw [if_pos hd]
    refine ⟨?_, valid_mk _ _ _ h1 h2 h3 (by omega) (by omega)⟩
    rw [rd_mk, hrd]
    omega
  · rw [if_neg hd]
    by_cases hm : d.month < 12
    · rw [if_pos hm]
      have hstep := daysBeforeMonth_step (isLeap d.year) d.month (by omega) h2
      have hpos := daysInMonthL_pos (isLeap d.year) (d.month + 1) (by omega) (by omega)
      refine ⟨?_, valid_mk _ _ _ h1 (by omega) (by omega) (le_refl 1) hpos⟩
      rw [rd_mk, hrd]
      omega
    · rw [if_neg hm]
      have hm12 : d.month = 12 := by omega
      have h31 := daysInMonthL_twelve (isLeap d.year)
      have hsucc := leapsBefore_succ d.year h1
      have hdb12 := daysBeforeMonth_twelve (isLeap d.year)
      have hone := daysBeforeMonth_one (isLeap (d.year + 1))
      have hpos := daysInMonthL_pos (isLeap (d.year + 1)) 1 (by omega) (by omega)
      rw [hm12] at hd h5
      have hrd2 : rd d = 365 * (d.year - 1) + leapsBefore d.year
          + daysBeforeMonth (isLeap d.year) 12 + d.day := by rw [hrd, hm12]
      refine ⟨?_, valid_mk _ _ _ (by omega) (by omega) (by omega) (le_refl 1) hpos⟩
      rw [rd_mk, hrd2, hone]
      omega

theorem rd_addDays (n : ℕ) : ∀ (d : Habits.Date), d.Valid →
    rd (addDays d n) = rd d + n ∧ (addDays d n).Valid := by
  induction n with
  | zero => exact fun d h => ⟨rfl, h⟩
  | succ k ih =>
    intro d h
    have hn := rd_nextDay d h
    obtain ⟨ih1, ih2⟩ := ih (nextDay d) hn.2
    refine ⟨?_, ih2⟩
    show rd (addDays (nextDay d) k) = rd d + (k + 1)
    rw [ih1, hn.1]
    omega

/-- A date of year 1 has rata-die number at most 365 (year 1 is not a
leap year). -/
theorem rd_year_one (d : Habits.Date) (h : d.Valid) (hy : d.year = 1) : rd d ≤ 365 := by
  obtain ⟨h1, h2, h3, h4, h5⟩ := valid_parts d h
  have hstep := daysBeforeMonth_step (isLeap d.year) d.month (by omega) h2
  have hyear := daysBeforeMonth_year (isLeap d.year) d.month (by omega)
  have hleap : isLeap d.year = false := by rw [hy]; decide
  have hlp : leapsBefore d.year = 0 := by rw [hy]; decide
  have hrd := rd_def d
  rw [hleap] at hstep hyear h5 hrd
  simp only [Bool.false_eq_true, if_false] at hyear
  omega

theorem year_two_of_rd (d : Habits.Date) (h : d.Valid) (hrd : 366 ≤ rd d) : 2 ≤ d.year := by
  by_contra hy
  push_neg at hy
  have h1 := h.1
  have := rd_year_one d h (by omega)
  omega

/-- Moving one day back subtracts one from the rata-die number. -/
theorem rd_prevDay (d : Habits.Date) (h : d.Valid) (hy : 2 ≤ d.year) :
    rd (prevDay d) = rd d - 1 ∧ (prevDay d).Valid := by
  obtain ⟨h1, h2, h3, h4, h5⟩ := valid_parts d h
  have hrd := rd_def d
  unfold prevDay
  by_cases hd : 1 < d.day
  · rw [if_pos hd]
    refine ⟨?_, valid_mk _ _ _ h1 h2 h3 (by omega) (by omega)⟩
    rw [rd_mk, hrd]
    omega
  · rw [if_neg hd]
    have hday : d.day = 1 := by omega
    by_cases hm : 1 < d.month
    · rw [if_pos hm]
      have hstep := daysBeforeMonth_step (isLeap d.year) (d.month - 1) (by omega) (by omega)
      have hpos := daysInMonthL_pos (isLeap d.year) (d.month - 1) (by omega) (by omega)
      have hm1 : d.month - 1 + 1 = d.month := by omega
      rw [hm1] at hstep
      refine ⟨?_, valid_mk _ _ _ h1 (by omega) (by omega) hpos (by rw [daysInMonth_def])⟩
      rw [rd_mk, hrd, daysInMonth_def]
      omega
    · rw [if_neg hm]
      have hm1 : d.month = 1 := by omega
      have hsucc := leapsBefore_succ (d.year - 1) (by omega)
      have hy1 : d.year - 1 + 1 = d.year := by omega
      rw [hy1] at hsucc
      have hdb12 := daysBeforeMonth_twelve (isLeap (d.year - 1))
      have h12 := daysInMonthL_twelve (isLeap (d.year - 1))
      have hone := daysBeforeMonth_one (isLeap d.year)
      have hrd2 : rd d = 365 * (d.year - 1) + leapsBefore d.year + 0 + d.day := by
        rw [hrd, hm1, hone]
      refine ⟨?_, valid_mk _ _ _ (by omega) (by omega) (by omega) (by omega) (by omega)⟩
      rw [rd_mk]
      omega

theorem rd_subDays (n : ℕ) : ∀ (d : Habits.Date), d.Valid → n + 366 ≤ rd d →
    rd (subDays d n) = rd d - n ∧ (subDays d n).Valid := by
  induction n with
  | zero => exact fun d h _ => ⟨rfl, h⟩
  | succ k ih =>
    intro d h hrd
    have hy : 2 ≤ d.year := year_two_of_rd d h (by omega)
    have hp := rd_prevDay d h hy
    obtain ⟨ih1, ih2⟩ := ih (prevDay d) hp.2 (by omega)
    refine ⟨?_, ih2⟩
    show rd (subDays (prevDay d) k) = rd d - (k + 1)
    rw [ih1, hp.1]
    omega

/-- Strict monotonicity of `rd` in the lexicographic year-month-day
order (on valid dates): a younger year is earlier. -/
theorem rd_lt_of_year_lt (a b : Habits.Date) (ha : a.Valid) (hb : b.Valid)
    (h : a.year < b.year) : rd a < rd b := by
  obtain ⟨a1, a2, a3, a4, a5⟩ := valid_parts a ha
  obtain ⟨b1, b2, b3, b4, b5⟩ := valid_parts b hb
  have hstep := daysBeforeMonth_step (isLeap a.year) a.month (by omega) a2
  have hyear := daysBeforeMonth_year (isLeap a.year) a.month (by omega)
  have hsucc := leapsBefore_succ a.year a1
  have hmono := leapsBefore_mono (show a.year + 1 ≤ b.year by omega)
  have hrda := rd_def a
  have hrdb := rd_def b
  omega

theorem rd_lt_of_lex (a b : Habits.Date) (ha : a.Valid) (hb : b.Valid)
    (h : a.year < b.year ∨ (a.year = b.year ∧ (a.month < b.month ∨
      (a.month = b.month ∧ a.day < b.day)))) : rd a < rd b := by
  rcases h with h | ⟨hy, h⟩
  · exact rd_lt_of_year_lt a b ha hb h
  · obtain ⟨a1, a2, a3, a4, a5⟩ := valid_parts a ha
    obtain ⟨b1, b2, b3, b4, b5⟩ := valid_parts b hb
    have hrda := rd_def a
    have hrdb := rd_def b
    rw [← hy] at hrdb
    rcases h with hm | ⟨hm, hd⟩
    · have hstep := daysBeforeMonth_step (isLeap a.year) a.month (by omega) a2
      have hmono := daysBeforeMonth_mono (isLeap a.year) b.month (by omega)
        (a.month + 1) (by omega) (by omega)
      omega
    · rw [← hm] at hrdb
      omega

theorem year_le_of_rd_le (a b : Habits.Date) (ha : a.Valid) (hb : b.Valid)
    (h : rd a ≤ rd b) : a.year ≤ b.year := by
  by_contra hlt
  push_neg at hlt
  have := rd_lt_of_year_lt b a hb ha hlt
  omega

theorem rd_pos (d : Habits.Date) (h : d.Valid) : 1 ≤ rd d := by
  have h4 := h.2.2.2.1
  have hrd := rd_def d
  omega

/-- A valid date lies at least `365 (y - 1) + 1` days into the
calendar. -/
theorem rd_ge_year (d : Habits.Date) (h : d.Valid) : 365 * (d.year - 1) + 1 ≤ rd d := by
  have h4 := h.2.2.2.1
  have hrd := rd_def d
  omega

/-- A valid date is within its year: bounded by the start of the next
year. -/
theorem rd_le_year (d : Habits.Date) (h : d.Valid) :
    rd d ≤ 365 * d.year + leapsBefore (d.year + 1) := by
  obtain ⟨h1, h2, h3, h4, h5⟩ := valid_parts d h
  have hstep := daysBeforeMonth_step (isLeap d.year) d.month (by omega) h2
  have hyear := daysBeforeMonth_year (isLeap d.year) d.month (by omega)
  have hsucc := leapsBefore_succ d.year h1
  have hrd := rd_def d
  omega

theorem daysInMonthL_three : ∀ (l : Bool), daysInMonthL l 3 = 31 := by decide

/-- `setFullYear` preserves validity and lands in the expected year. -/
theorem yearsBefore_valid (k : ℕ) (d : Habits.Date) (h : d.Valid) (hy : k + 1 ≤ d.year) :
    (yearsBefore k d).Valid ∧ (yearsBefore k d).year = d.year - k := by
  obtain ⟨h1, h2, h3, h4, h5⟩ := valid_parts d h
  simp only [yearsBefore, daysInMonth_def]
  by_cases hc : d.day ≤ daysInMonthL (isLeap (d.year - k)) d.month
  · rw [if_pos hc]
    exact ⟨valid_mk _ _ _ (by omega) h2 h3 h4 hc, rfl⟩
  · rw [if_neg hc]
    have hm2 : d.month = 2 := by
      by_contra hne
      have heq := daysInMonthL_eq_of_ne_two (isLeap d.year) (isLeap (d.year - k)) d.month
        (by omega) hne
      omega
    rw [hm2] at hc h5 ⊢
    have ha := daysInMonthL_two (isLeap d.year)
    have hb := daysInMonthL_two (isLeap (d.year - k))
    have ha1 : (if isLeap d.year then 1 else 0) ≤ 1 := by split <;> omega
    have hb1 : (if isLeap (d.year - k) then 1 else 0) ≤ 1 := by split <;> omega
    have h31 : daysInMonthL (isLeap (d.year - k)) (2 + 1) = 31 :=
      daysInMonthL_three (isLeap (d.year - k))
    exact ⟨valid_mk _ _ _ (by omega) (by omega) (by omega) (by omega) (by omega), rfl⟩

theorem rd_yearsBefore_lt (k : ℕ) (d : Habits.Date) (h : d.Valid) (hk : 1 ≤ k)
    (hy : k + 1 ≤ d.year) : rd (yearsBefore k d) < rd d := by
  have hv := yearsBefore_valid k d h hy
  refine rd_lt_of_year_lt _ _ hv.1 h ?_
  rw [hv.2]
  omega

/-- Crude bound: `setFullYear(y - 3)` moves at most 1500 days back.
Used to show the 1000-week safety counter of the grid builder never
binds. -/
theorem rd_yearsBefore_ge (d : Habits.Date) (h : d.Valid) (hy : 4 ≤ d.year) :
    rd d ≤ rd (yearsBefore 3 d) + 1500 := by
  obtain ⟨h1, h2, h3, h4, h5⟩ := valid_parts d h
  have hrd := rd_def d
  have hdbm := daysBeforeMonth_le (isLeap d.year) d.month (by omega)
  have hl : leapsBefore d.year ≤ leapsBefore (d.year - 3) + 3 := by
    unfold leapsBefore
    omega
  simp only [yearsBefore, daysInMonth_def]
  by_cases hc : d.day ≤ daysInMonthL (isLeap (d.year - 3)) d.month
  · rw [if_pos hc]
    simp only [rd_mk]
    omega
  · rw [if_neg hc]
    simp only [rd_mk]
    have hdl := daysInMonthL_le (isLeap (d.year - 3)) d.month (by omega)
    omega

theorem mondayDelta_le (d : Habits.Date) : mondayDelta d ≤ 6 := by
  unfold mondayDelta
  split <;> omega

/-- The Monday alignment subtracts at most 6 days and lands on a
Monday (`rd % 7 = 1`, since rata die 1 is a Monday). -/
theorem rd_mondayOnOrBefore (d : Habits.Date) (h : d.Valid) (hbig : 400 ≤ rd d) :
    rd (mondayOnOrBefore d) = rd d - mondayDelta d ∧ (mondayOnOrBefore d).Valid ∧
      rd (mondayOnOrBefore d) % 7 = 1 := by
  have hdel := mondayDelta_le d
  have hs := rd_subDays (mondayDelta d) d h (by omega)
  refine ⟨hs.1, hs.2, ?_⟩
  show rd (subDays d (mondayDelta d)) % 7 = 1
  rw [hs.1]
  unfold mondayDelta
  split <;> omega

/-! ## Lemmas about association-list reads and writes -/

@[simp] theorem lookupKey_nil {κ α : Type} [DecidableEq κ] (k : κ) :
    lookupKey ([] : List (κ × α)) k = none := rfl

@[simp] theorem lookupKey_cons {κ α : Type} [DecidableEq κ] (e : κ × α) (rest : List (κ × α))
    (k : κ) : lookupKey (e :: rest) k = if e.1 = k then some e.2 else lookupKey rest k := rfl

theorem lookupKey_mapSet_self {κ α : Type} [DecidableEq κ] (l : List (κ × α)) (k : κ) (v : α)
    (hs : (lookupKey l k).isSome = true) :
    (lookupKey (l.map (fun e => if e.1 = k then (k, v) else e)) k) = some v := by
  induction l with
  | nil => simp at hs
  | cons e rest ih =>
    by_cases he : e.1 = k
    · simp [he]
    · simp only [lookupKey_cons, he, if_false] at hs
      simpa [he] using ih hs

theorem lookupKey_mapSet_other {κ α : Type} [DecidableEq κ] (l : List (κ × α)) (k k2 : κ)
    (v : α) (hne : k2 ≠ k) :
    (lookupKey (l.map (fun e => if e.1 = k then (k, v) else e)) k2) = lookupKey l k2 := by
  have h1 : ¬ (k = k2) := fun h => hne h.symm
  induction l with
  | nil => simp
  | cons e rest ih =>
    by_cases he : e.1 = k
    · have h2 : ¬ (e.1 = k2) := by rw [he]; exact h1
      simp only [List.map_cons, if_pos he, lookupKey_cons, h1, h2, if_false]
      exact ih
    · simp only [List.map_cons, if_neg he, lookupKey_cons]
      by_cases h2 : e.1 = k2
      · simp [h2]
      · simp only [h2, if_false]
        exact ih

theorem lookupKey_append_of_none {κ α : Type} [DecidableEq κ] (l1 l2 : List (κ × α)) (k : κ)
    (h : lookupKey l1 k = none) : lookupKey (l1 ++ l2) k = lookupKey l2 k := by
  induction l1 with
  | nil => simp
  | cons e rest ih =>
    by_cases he : e.1 = k
    · simp [he] at h
    · simp only [lookupKey_cons, he, if_false] at h
      simpa [he] using ih h

theorem lookupKey_append_of_ne {κ α : Type} [DecidableEq κ] (l : List (κ × α)) (k k2 : κ)
    (v : α) (hne : k2 ≠ k) : lookupKey (l ++ [(k, v)]) k2 = lookupKey l k2 := by
  have h1 : ¬ (k = k2) := fun h => hne h.symm
  induction l with
  | nil => simp [h1]
  | cons e rest ih =>
    by_cases he : e.1 = k2
    · simp [he]
    · simpa [he] using ih

/-- Reading a written object: `{...l, [k]: v}[k2]` is `v` at `k` and the
old value elsewhere. -/
theorem lookupKey_setKey {κ α : Type} [DecidableEq κ] (l : List (κ × α)) (k k2 : κ) (v : α) :
    lookupKey (setKey l k v) k2 = if k2 = k then some v else lookupKey l k2 := by
  unfold setKey
  by_cases hs : (lookupKey l k).isSome = true
  · rw [if_pos hs]
    by_cases hk : k2 = k
    · subst hk; rw [if_pos rfl]; exact lookupKey_mapSet_self l k2 v hs
    · rw [if_neg hk]; exact lookupKey_mapSet_other l k k2 v hk
  · rw [if_neg hs]
    have hnone : lookupKey l k = none := by
      cases h : lookupKey l k with
      | none => rfl
      | some w => rw [h] at hs; simp at hs
    by_cases hk : k2 = k
    · subst hk
      rw [if_pos rfl, lookupKey_append_of_none _ _ _ hnone]
      simp
    · rw [if_neg hk]
      exact lookupKey_append_of_ne l k k2 v hk

/-- Reading after `delete l[k]`. -/
theorem lookupKey_delKey {κ α : Type} [DecidableEq κ] (l : List (κ × α)) (k k2 : κ) :
    lookupKey (delKey l k) k2 = if k2 = k then none else lookupKey l k2 := by
  induction l with
  | nil => simp [delKey]
  | cons e rest ih =>
    simp only [delKey, List.filter_cons] at ih ⊢
    by_cases he : e.1 = k
    · rw [if_neg (by simp [he])]
      rw [ih]
      by_cases hk : k2 = k
      · simp [hk]
      · have h2 : ¬ (e.1 = k2) := by rw [he]; exact fun h => hk h.symm
        simp [hk, h2]
    · rw [if_pos (by simp [he]), lookupKey_cons]
      by_cases h2 : e.1 = k2
      · have h3 : ¬ (k2 = k) := by rw [← h2]; exact he
        simp [h2, h3]
      · simp only [lookupKey_cons, h2, if_false]
        exact ih

/-- Reading the record after the single toggle: the toggled key holds
`true` exactly when its old value was falsy and is gone otherwise;
every other key is untouched. -/
theorem lookupKey_toggleRecord (c : CompletionRecord) (d k : Habits.Date) :
    lookupKey (toggleRecord c d) k =
      if k = d then (if truthyOpt (lookupKey c d) then none else some (.bool true))
      else lookupKey c k := by
  by_cases ht : truthyOpt (lookupKey c d) = true
  · simp only [toggleRecord, ht, Bool.not_true, Bool.false_eq_true, if_false, if_true]
    rw [lookupKey_delKey]
  · have ht2 : truthyOpt (lookupKey c d) = false := by
      cases h : truthyOpt (lookupKey c d)
      · rfl
      · exact absurd h ht
    simp only [toggleRecord, ht2, Bool.not_false, Bool.false_eq_true, if_false, if_true]
    rw [lookupKey_setKey]

/-- Reading the overlay after an EDITING toggle: the toggled key holds
`true` exactly when the effective value was falsy and is gone
otherwise; other overlay keys are untouched. -/
theorem lookupKey_overlayToggle (completions prev : CompletionRecord) (d k : Habits.Date) :
    lookupKey (overlayToggle completions prev d) k =
      if k = d then
        (if truthyOpt (effectiveVal completions prev d) then none else some (.bool true))
      else lookupKey prev k := by
  by_cases ht : truthyOpt (effectiveVal completions prev d) = true
  · simp only [overlayToggle, effectiveVal] at ht ⊢
    simp only [ht, Bool.not_true, Bool.false_eq_true, if_false, if_true]
    rw [lookupKey_delKey]
  · have ht2 : truthyOpt (effectiveVal completions prev d) = false := by
      cases h : truthyOpt (effectiveVal completions prev d)
      · rfl
      · exact absurd h ht
    simp only [overlayToggle, effectiveVal] at ht2 ⊢
    simp only [ht2, Bool.not_false, Bool.false_eq_true, if_false, if_true]
    rw [lookupKey_setKey]

/-! ## Claim C2: the EDITING toggle and the overlay round trip -/

/-- C2 fails as stated, at two explicit inputs.  First: with
authoritative marker `true` and an empty overlay, the toggle deletes
(leaves absent) the overlay key although the flipped value (`false`)
differs from the authoritative value, so deletion does not happen
"exactly when the flipped value returns to the authoritative value".
Second: with overlay `{2024-01-01: true}` over an empty authoritative
record, toggling the same key twice leaves the overlay containing the
key, refuting the unrestricted round-trip. -/
theorem claim_C2_counterexample :
    (¬ (lookupKey (overlayToggle c2auth [] ⟨2024, 1, 1⟩) ⟨2024, 1, 1⟩ = none ↔
        ((!truthyOpt (effectiveVal c2auth [] ⟨2024, 1, 1⟩)) =
          isDoneOpt (lookupKey c2auth ⟨2024, 1, 1⟩)))) ∧
    lookupKey (overlayToggle [] (overlayToggle [] c2overlay ⟨2024, 1, 1⟩) ⟨2024, 1, 1⟩)
      ⟨2024, 1, 1⟩ = some (.bool true) := by
  constructor
  · decide
  · decide

/-- C2 (amended): during EDITING, a toggle stores `true` under the key
exactly when the effective value (overlay entry if present, else
authoritative) is falsy, and deletes the overlay key exactly when the
effective value is truthy — which coincides with the flipped value
returning to the authoritative value only when the authoritative
marker is falsy.  When the overlay does not yet contain the key (in
particular at the start of an edit session), toggling the same key
twice leaves the overlay without that key. -/
theorem claim_C2_amended (completions prev : CompletionRecord) (d : Habits.Date) :
    (lookupKey (overlayToggle completions prev d) d =
      (if truthyOpt (effectiveVal completions prev d) then none else some (.bool true))) ∧
    (lookupKey prev d = none →
      lookupKey (overlayToggle completions (overlayToggle completions prev d) d) d = none) := by
  constructor
  · rw [lookupKey_overlayToggle]; simp
  · intro hnone
    rw [lookupKey_overlayToggle]
    simp only [if_pos rfl]
    by_cases ht : truthyOpt (lookupKey completions d) = true
    · have he1 : truthyOpt (effectiveVal completions prev d) = true := by
        simp [effectiveVal, hnone, ht]
      have hl : lookupKey (overlayToggle completions prev d) d = none := by
        rw [lookupKey_overlayToggle]; simp [he1]
      have he2 : truthyOpt (effectiveVal completions (overlayToggle completions prev d) d) = true := by
        simp [effectiveVal, hl, ht]
      simp [he2]
    · have hl : lookupKey (overlayToggle completions prev d) d = some (.bool true) := by
        rw [lookupKey_overlayToggle]
        simp only [if_pos rfl]
        have : truthyOpt (effectiveVal completions prev d) = false := by
          simp [effectiveVal, hnone]
          cases h : truthyOpt (lookupKey completions d)
          · rfl
          · exact absurd h ht
        simp [this]
      have he2 : truthyOpt (effectiveVal completions (overlayToggle completions prev d) d) = true := by
        simp [effectiveVal, hl, truthyOpt, truthy]
      simp [he2]

/-- C2 witness: toggling 2024-01-02 twice from an empty overlay leaves
the overlay without the key. -/
theorem claim_C2_amended_witness :
    lookupKey (overlayToggle c2auth (overlayToggle c2auth [] ⟨2024, 1, 2⟩) ⟨2024, 1, 2⟩)
      ⟨2024, 1, 2⟩ = none :=
  (claim_C2_amended c2auth [] ⟨2024, 1, 2⟩).2 rfl

/-! ## Claim C7: the disabled guard of the calendar day button -/

/-- C7: in VIEWING a click on any cell other than today changes
neither the authoritative record nor the overlay; a future cell is
disabled in every state; and in EDITING no click ever mutates the
authoritative record. -/
theorem claim_C7 (completions : CompletionRecord) (es : EditSession)
    (today cell : Habits.Date) :
    (es.isEditingCalendar = false → rd cell ≠ rd today →
      calendarDayClick completions es today cell = (completions, es.pendingEdits)) ∧
    (rd today < rd cell →
      calendarDayClick completions es today cell = (completions, es.pendingEdits)) ∧
    (es.isEditingCalendar = true →
      (calendarDayClick completions es today cell).1 = completions) := by
  refine ⟨?_, ?_, ?_⟩
  · intro hed hne
    have : dayDisabled es.isEditingCalendar today cell = true := by
      simp [dayDisabled, hed, hne]
    simp [calendarDayClick, this]
  · intro hfut
    have : dayDisabled es.isEditingCalendar today cell = true := by
      simp [dayDisabled, hfut]
    simp [calendarDayClick, this]
  · intro hed
    simp only [calendarDayClick, handleToggle, hed]
    by_cases hdis : dayDisabled true today cell = true
    · simp [hdis]
    · simp [hdis]

/-- C7 witness: with VIEWING state and today 2024-06-20, clicking
2024-06-15 (past, not today) and 2024-06-25 (future) changes nothing. -/
theorem claim_C7_witness :
    calendarDayClick [] ⟨false, []⟩ ⟨2024, 6, 20⟩ ⟨2024, 6, 15⟩ = ([], []) ∧
    calendarDayClick [] ⟨false, []⟩ ⟨2024, 6, 20⟩ ⟨2024, 6, 25⟩ = ([], []) :=
  ⟨(claim_C7 [] ⟨false, []⟩ ⟨2024, 6, 20⟩ ⟨2024, 6, 15⟩).1 rfl (by decide),
   (claim_C7 [] ⟨false, []⟩ ⟨2024, 6, 20⟩ ⟨2024, 6, 25⟩).2.1 (by decide)⟩

/-! ## Claim C10: the single mutation entrypoint -/

theorem habitRecord_toggleCompletion_self (st : Completions) (h : ℕ) (d : Habits.Date) :
    habitRecord (toggleCompletion st h d) h = toggleRecord (habitRecord st h) d := by
  unfold habitRecord toggleCompletion
  rw [lookupKey_setKey]
  simp

theorem lookupKey_toggleCompletion_other (st : Completions) (h h2 : ℕ) (d : Habits.Date)
    (hne : h2 ≠ h) : lookupKey (toggleCompletion st h d) h2 = lookupKey st h2 := by
  unfold toggleCompletion
  rw [lookupKey_setKey, if_neg hne]

/-- C10 fails as stated: with the legacy numeric marker `3` (truthy but
not "done"), applying the toggle twice turns a not-done day into a done
day instead of restoring its done-status. -/
theorem claim_C10_counterexample :
    isDoneOpt (lookupKey (habitRecord [(0, [(⟨2024, 1, 1⟩, .num 3)])] 0) ⟨2024, 1, 1⟩) = false ∧
    isDoneOpt (lookupKey (habitRecord
      (toggleCompletion (toggleCompletion [(0, [(⟨2024, 1, 1⟩, .num 3)])] 0 ⟨2024, 1, 1⟩)
        0 ⟨2024, 1, 1⟩) 0) ⟨2024, 1, 1⟩) = true := by
  constructor
  · decide
  · decide

/-- C10 (amended): `toggleCompletion(h, d)` sets the entry of `d` in
the record of `h` to exactly the boolean `true` when the current
marker is absent or falsy, and deletes the key entirely when the
current marker is truthy (legacy numeric markers included, which are
thereby replaced); the toggle never writes `false`; applying it twice
restores the done-status of the day whenever the current marker has
its truthiness agreeing with its done-status (which holds for absent,
boolean, and the numeric markers 0, 1 and 2, but not for a truthy
non-done numeric marker such as 3); and every other day of the habit
and every other habit are unchanged. -/
theorem claim_C10_amended (st : Completions) (h : ℕ) (d : Habits.Date) :
    (lookupKey (habitRecord (toggleCompletion st h d) h) d =
      (if truthyOpt (lookupKey (habitRecord st h) d) then none else some (.bool true))) ∧
    (∀ k, lookupKey (habitRecord (toggleCompletion st h d) h) k = some (.bool false) →
      lookupKey (habitRecord st h) k = some (.bool false)) ∧
    (truthyOpt (lookupKey (habitRecord st h) d) = isDoneOpt (lookupKey (habitRecord st h) d) →
      isDoneOpt (lookupKey (habitRecord (toggleCompletion (toggleCompletion st h d) h d) h) d)
        = isDoneOpt (lookupKey (habitRecord st h) d)) ∧
    (∀ k, k ≠ d → lookupKey (habitRecord (toggleCompletion st h d) h) k
      = lookupKey (habitRecord st h) k) ∧
    (∀ h2, h2 ≠ h → lookupKey (toggleCompletion st h d) h2 = lookupKey st h2) := by
  refine ⟨?_, ?_, ?_, ?_, ?_⟩
  · rw [habitRecord_toggleCompletion_self, lookupKey_toggleRecord]
    simp
  · intro k hk
    rw [habitRecord_toggleCompletion_self, lookupKey_toggleRecord] at hk
    by_cases hkd : k = d
    · rw [if_pos hkd] at hk
      by_cases ht : truthyOpt (lookupKey (habitRecord st h) d) = true
      · rw [if_pos ht] at hk; cases hk
      · rw [if_neg ht] at hk; cases hk
    · rwa [if_neg hkd] at hk
  · intro hagree
    rw [habitRecord_toggleCompletion_self, lookupKey_toggleRecord, if_pos rfl,
      habitRecord_toggleCompletion_self, lookupKey_toggleRecord, if_pos rfl]
    by_cases ht : truthyOpt (lookupKey (habitRecord st h) d) = true
    · rw [ht] at hagree
      simp only [ht, if_true]
      rw [← hagree]
      decide
    · have ht2 : truthyOpt (lookupKey (habitRecord st h) d) = false := by
        cases hb : truthyOpt (lookupKey (habitRecord st h) d)
        · rfl
        · exact absurd hb ht
      rw [ht2] at hagree
      simp only [ht2, Bool.false_eq_true, if_false]
      rw [← hagree]
      decide
  · intro k hk
    rw [habitRecord_toggleCompletion_self, lookupKey_toggleRecord, if_neg hk]
  · intro h2 hne
    exact lookupKey_toggleCompletion_other st h h2 d hne

/-- C10 witness: double-toggling a day marked with the boolean `true`
(truthiness agrees with done-status) restores its done-status. -/
theorem claim_C10_amended_witness :
    isDoneOpt (lookupKey (habitRecord (toggleCompletion (toggleCompletion
        [(0, [(⟨2024, 1, 1⟩, Marker.bool true)])] 0 ⟨2024, 1, 1⟩) 0 ⟨2024, 1, 1⟩) 0)
      ⟨2024, 1, 1⟩)
    = isDoneOpt (lookupKey (habitRecord [(0, [(⟨2024, 1, 1⟩, Marker.bool true)])] 0)
      ⟨2024, 1, 1⟩) :=
  (claim_C10_amended [(0, [(⟨2024, 1, 1⟩, .bool true)])] 0 ⟨2024, 1, 1⟩).2.2.1 (by decide)

/-! ## Claim C3: committing the overlay -/

theorem commitPendingEdits_cons (c : CompletionRecord) (a : Habits.Date)
    (l : List Habits.Date) :
    commitPendingEdits c (a :: l) = commitPendingEdits (toggleRecord c a) l := rfl

theorem lookupKey_commit_notMem (c : CompletionRecord) (l : List Habits.Date)
    (k : Habits.Date) (hk : k ∉ l) :
    lookupKey (commitPendingEdits c l) k = lookupKey c k := by
  induction l generalizing c with
  | nil => rfl
  | cons a l ih =>
    rw [commitPendingEdits_cons]
    have hka : ¬ (k = a) := fun h => hk (h ▸ List.mem_cons_self a l)
    rw [ih _ (fun h => hk (List.mem_cons_of_mem a h))]
    rw [lookupKey_toggleRecord, if_neg hka]

theorem toggleRecord_congr (c1 c2 : CompletionRecord) (d : Habits.Date)
    (h : ∀ k, lookupKey c1 k = lookupKey c2 k) (k : Habits.Date) :
    lookupKey (toggleRecord c1 d) k = lookupKey (toggleRecord c2 d) k := by
  rw [lookupKey_toggleRecord, lookupKey_toggleRecord, h d, h k]

theorem commit_congr (l : List Habits.Date) (c1 c2 : CompletionRecord)
    (h : ∀ k, lookupKey c1 k = lookupKey c2 k) (k : Habits.Date) :
    lookupKey (commitPendingEdits c1 l) k = lookupKey (commitPendingEdits c2 l) k := by
  induction l generalizing c1 c2 with
  | nil => exact h k
  | cons a l ih =>
    rw [commitPendingEdits_cons, commitPendingEdits_cons]
    exact ih _ _ (toggleRecord_congr c1 c2 a h)

/-- Toggles at two day-keys commute up to the reads they produce. -/
theorem toggleRecord_swap (c : CompletionRecord) (a b k : Habits.Date) :
    lookupKey (toggleRecord (toggleRecord c a) b) k =
    lookupKey (toggleRecord (toggleRecord c b) a) k := by
  by_cases hab : a = b
  · subst hab; rfl
  · have hba : ¬ (b = a) := fun h => hab h.symm
    simp only [lookupKey_toggleRecord]
    by_cases hka : k = a <;> by_cases hkb : k = b
    · exact absurd (hka.symm.trans hkb) hab
    · simp [hka, hkb, hab, hba]
    · simp [hka, hkb, hab, hba]
    · simp [hka, hkb]

/-- Replaying the staged keys in any order produces the same record, as
observed through every read. -/
theorem commit_perm (c : CompletionRecord) {l1 l2 : List Habits.Date} (p : l1.Perm l2)
    (k : Habits.Date) :
    lookupKey (commitPendingEdits c l1) k = lookupKey (commitPendingEdits c l2) k := by
  induction p generalizing c with
  | nil => rfl
  | cons a _ ih =>
    rw [commitPendingEdits_cons, commitPendingEdits_cons]
    exact ih _
  | swap a b l =>
    rw [commitPendingEdits_cons, commitPendingEdits_cons, commitPendingEdits_cons,
      commitPendingEdits_cons]
    exact commit_congr l _ _ (toggleRecord_swap c b a) k
  | trans _ _ ih1 ih2 => exact (ih1 c).trans (ih2 c)

theorem mem_keysOf_of_isSome {κ α : Type} [DecidableEq κ] (l : List (κ × α)) (k : κ)
    (h : (lookupKey l k).isSome = true) : k ∈ keysOf l := by
  induction l with
  | nil => simp at h
  | cons e rest ih =>
    by_cases he : e.1 = k
    · simp [keysOf, he.symm]
    · simp only [lookupKey_cons, he, if_false] at h
      simp only [keysOf, List.map_cons, List.mem_cons]
      right
      exact ih h

/-- Reading a committed key: each staged day-key is toggled exactly
once by the replay. -/
theorem lookupKey_commit_mem (c : CompletionRecord) (l : List Habits.Date)
    (d : Habits.Date) (hnd : l.Nodup) (hd : d ∈ l) :
    lookupKey (commitPendingEdits c l) d =
      (if truthyOpt (lookupKey c d) then none else some (.bool true)) := by
  induction l generalizing c with
  | nil => cases hd
  | cons a l ih =>
    rw [commitPendingEdits_cons]
    by_cases had : a = d
    · subst had
      have hnotin : a ∉ l := (List.nodup_cons.mp hnd).1
      rw [lookupKey_commit_notMem _ _ _ hnotin, lookupKey_toggleRecord]
      simp
    · have hda : ¬ (d = a) := fun hh => had hh.symm
      have hdl : d ∈ l := by
        cases hd with
        | head => exact absurd rfl had
        | tail _ hmem => exact hmem
      rw [ih _ (List.nodup_cons.mp hnd).2 hdl, lookupKey_toggleRecord]
      simp [hda]

/-- C3 fails as stated: the single entry of the overlay maps its
day-key to exactly that key's existing authoritative done-state
(`true`), yet committing changes the record (the replay toggles the
day off). -/
theorem claim_C3_counterexample :
    c3overlay = [(⟨2024, 1, 1⟩, .bool (isDoneOpt (lookupKey c3auth ⟨2024, 1, 1⟩)))] ∧
    commitOverlay c3auth c3overlay ≠ c3auth := by
  constructor
  · decide
  · decide

/-- C3 (amended): committing replays each staged day-key through the
toggle mutation, which flips the day rather than idempotently setting
it.  Committing the empty overlay leaves the record unchanged; the
result of a commit does not depend on the order in which the staged
keys are replayed; and each staged key ends up toggled exactly once:
set to `true` when its authoritative marker was falsy and removed when
it was truthy (so an overlay entry equal to an existing done marker
removes that completion instead of preserving it). -/
theorem claim_C3_amended :
    (∀ completions : CompletionRecord, commitOverlay completions [] = completions) ∧
    (∀ (completions : CompletionRecord) (l1 l2 : List Habits.Date), l1.Perm l2 → ∀ k,
      lookupKey (commitPendingEdits completions l1) k
        = lookupKey (commitPendingEdits completions l2) k) ∧
    (∀ (completions pendingEdits : CompletionRecord) (d : Habits.Date),
      (keysOf pendingEdits).Nodup → (lookupKey pendingEdits d).isSome = true →
      lookupKey (commitOverlay completions pendingEdits) d
        = (if truthyOpt (lookupKey completions d) then none else some (.bool true))) := by
  refine ⟨fun _ => rfl, fun completions l1 l2 p k => commit_perm completions p k, ?_⟩
  intro completions pendingEdits d hnd hsome
  exact lookupKey_commit_mem completions (keysOf pendingEdits) d hnd
    (mem_keysOf_of_isSome pendingEdits d hsome)

/-- C3 witness: the replay order of two staged keys is irrelevant, and
committing a staged key over an absent authoritative marker sets it to
`true`. -/
theorem claim_C3_amended_witness :
    (lookupKey (commitPendingEdits [] [⟨2024, 1, 1⟩, ⟨2024, 1, 2⟩]) ⟨2024, 1, 1⟩
      = lookupKey (commitPendingEdits [] [⟨2024, 1, 2⟩, ⟨2024, 1, 1⟩]) ⟨2024, 1, 1⟩) ∧
    lookupKey (commitOverlay [] [(⟨2024, 1, 1⟩, Marker.bool true)]) ⟨2024, 1, 1⟩
      = some (Marker.bool true) := by
  constructor
  · exact claim_C3_amended.2.1 [] _ _ (List.Perm.swap ⟨2024, 1, 2⟩ ⟨2024, 1, 1⟩ []) ⟨2024, 1, 1⟩
  · have h := claim_C3_amended.2.2 [] [(⟨2024, 1, 1⟩, .bool true)] ⟨2024, 1, 1⟩
      (by decide) (by decide)
    simpa using h

/-! ## Claim C9: streak lengths sum to the done count -/

theorem streakGo_length_sum (cur : Streak) (l : List Habits.Date) :
    ((streakGo cur l).map Streak.length).sum = cur.length + l.length := by
  induction l generalizing cur with
  | nil => simp [streakGo]
  | cons x xs ih =>
    by_cases h : diffDays cur.endD x = 1
    · simp only [streakGo, h, if_true]
      rw [ih]
      simp
      omega
    · simp only [streakGo, h, if_false, List.map_cons, List.sum_cons]
      rw [ih]
      simp
      omega

theorem rawStreaks_sum (c : CompletionRecord) :
    ((rawStreaks c).map Streak.length).sum = (sortedDoneKeys c).length := by
  unfold rawStreaks
  cases h : sortedDoneKeys c with
  | nil => simp
  | cons d rest =>
    rw [streakGo_length_sum]
    simp only [List.length_cons]
    omega

theorem doneKeys_length (c : CompletionRecord) (h : (keysOf c).Nodup) :
    (doneKeys c).length = totalCompletions c := by
  induction c with
  | nil => rfl
  | cons e rest ih =>
    have h2 : keysOf (e :: rest) = e.1 :: keysOf rest := rfl
    rw [h2] at h
    have hnd := List.nodup_cons.mp h
    have hke : e.1 ∉ keysOf rest := hnd.1
    have hrest := ih hnd.2
    have hfilter : (keysOf rest).filter (fun k => isDoneOpt (lookupKey (e :: rest) k))
        = (keysOf rest).filter (fun k => isDoneOpt (lookupKey rest k)) := by
      apply List.filter_congr
      intro k hk
      have hne : ¬ (e.1 = k) := fun hh => hke (hh ▸ hk)
      simp [hne]
    have hhead : isDoneOpt (lookupKey (e :: rest) e.1) = isDone e.2 := by
      simp [isDoneOpt]
    unfold doneKeys totalCompletions at hrest ⊢
    rw [h2]
    simp only [List.map_cons, List.filter_cons, hhead]
    by_cases hd : isDone e.2 = true
    · simp only [hd, if_true, List.length_cons]
      rw [hfilter, hrest]
    · have hd2 : isDone e.2 = false := by
        cases hb : isDone e.2
        · rfl
        · exact absurd hb hd
      simp only [hd2, Bool.false_eq_true, if_false]
      rw [hfilter, hrest]

/-- C9: before truncation to the top 5, the streak lengths of a record
with distinct day-keys sum to the total number of done days. -/
theorem claim_C9 (c : CompletionRecord) (h : (keysOf c).Nodup) :
    ((rawStreaks c).map Streak.length).sum = totalCompletions c := by
  rw [rawStreaks_sum]
  unfold sortedDoneKeys
  rw [(List.perm_insertionSort dateLe (doneKeys c)).length_eq]
  exact doneKeys_length c h

/-- C9 witness: a concrete record with 4 done days in 2 runs. -/
theorem claim_C9_witness :
    ((rawStreaks [(⟨2024, 1, 1⟩, .bool true), (⟨2024, 1, 2⟩, .num 2),
      (⟨2024, 1, 5⟩, .num 1), (⟨2024, 1, 6⟩, .bool true), (⟨2024, 1, 7⟩, .num 0)]).map
        Streak.length).sum =
    totalCompletions [(⟨2024, 1, 1⟩, .bool true), (⟨2024, 1, 2⟩, .num 2),
      (⟨2024, 1, 5⟩, .num 1), (⟨2024, 1, 6⟩, .bool true), (⟨2024, 1, 7⟩, .num 0)] :=
  claim_C9 _ (by decide)

/-! ## Claim C4: the streak detector -/

/-- C4: the empty record yields no streaks; Scenario B yields the one
streak from 2024-01-01 to 2024-01-05 of length 5; and for every record
the returned list has at most 5 entries and is ordered by length
descending (the sort is stable, so ties keep their visiting order). -/
theorem claim_C4 :
    streaks [] = [] ∧
    streaks scenarioB = [⟨⟨2024, 1, 1⟩, ⟨2024, 1, 5⟩, 5⟩] ∧
    (∀ c : CompletionRecord, (streaks c).length ≤ 5) ∧
    (∀ c : CompletionRecord, (streaks c).Pairwise lenDescRel) := by
  refine ⟨by decide, by decide, fun c => ?_, fun c => ?_⟩
  · exact List.length_take_le 5 _
  · exact (List.sorted_insertionSort lenDescRel (rawStreaks c)).sublist
      (List.take_sublist 5 _)

/-! ## Score engine lemmas -/

/-- The thirteenth power of the multiplier is one half (the defining
property of the half-life-13 decay). -/
theorem multiplier_pow : multiplier ^ (13 : ℕ) = 1 / 2 := by
  unfold multiplier
  rw [Real.sqrt_one,
    ← Real.rpow_natCast ((0.5 : ℝ) ^ ((1 : ℝ) / 13)) 13,
    ← Real.rpow_mul (by norm_num : (0 : ℝ) ≤ 0.5),
    show ((1 : ℝ) / 13) * ((13 : ℕ) : ℝ) = 1 by norm_num,
    Real.rpow_one]
  norm_num

/-- Rational bounds on the multiplier `0.5 ^ (1 / 13) ≈ 0.9481`. -/
theorem multiplier_bounds : (0.945 : ℝ) < multiplier ∧ multiplier < (0.955 : ℝ) := by
  have hpos : (0 : ℝ) < multiplier := by
    unfold multiplier
    exact Real.rpow_pos_of_pos (by norm_num) _
  have hp := multiplier_pow
  constructor
  · by_contra hle
    push_neg at hle
    have hb : multiplier ^ (13 : ℕ) ≤ (0.945 : ℝ) ^ (13 : ℕ) :=
      pow_le_pow_left₀ hpos.le hle 13
    rw [hp] at hb
    norm_num at hb
  · by_contra hge
    push_neg at hge
    have hb : (0.955 : ℝ) ^ (13 : ℕ) ≤ multiplier ^ (13 : ℕ) :=
      pow_le_pow_left₀ (by norm_num) hge 13
    rw [hp] at hb
    norm_num at hb

theorem multiplier_pos : (0 : ℝ) < multiplier :=
  lt_trans (by norm_num) multiplier_bounds.1

theorem multiplier_lt_one : multiplier < 1 :=
  lt_trans multiplier_bounds.2 (by norm_num)

/-- The first-day score reported as a rounded percentage is 5. -/
theorem round_score_one : round ((1 - multiplier) * 100) = 5 := by
  obtain ⟨h1, h2⟩ := multiplier_bounds
  rw [round_eq, Int.floor_eq_iff]
  constructor
  · push_cast
    nlinarith
  · push_cast
    nlinarith

/-- Every score produced by the walk stays in `[0, 1]` when the
incoming score does. -/
theorem scoreWalk_bounds (c : CompletionRecord) (today : Habits.Date) :
    ∀ (fuel : ℕ) (cur : Habits.Date) (s : ℝ), 0 ≤ s → s ≤ 1 →
      ∀ p ∈ scoreWalk c today cur s fuel, 0 ≤ p.2 ∧ p.2 ≤ 1 := by
  intro fuel
  induction fuel with
  | zero =>
    intro cur s _ _ p hp
    simp [scoreWalk] at hp
  | succ n ih =>
    intro cur s hs0 hs1 p hp
    simp only [scoreWalk] at hp
    by_cases hc : rd cur ≤ rd today
    · rw [if_pos hc] at hp
      have hm0 := multiplier_pos
      have hm1 := multiplier_lt_one
      have hchk0 : (0 : ℝ) ≤ (if isDoneOpt (lookupKey c cur) then (1 : ℝ) else 0) := by
        split <;> norm_num
      have hchk1 : (if isDoneOpt (lookupKey c cur) then (1 : ℝ) else 0) ≤ 1 := by
        split <;> norm_num
      have hstep0 : (0 : ℝ) ≤ s * multiplier
          + (if isDoneOpt (lookupKey c cur) then (1 : ℝ) else 0) * (1 - multiplier) := by
        have := mul_nonneg hs0 hm0.le
        have := mul_nonneg hchk0 (by linarith : (0 : ℝ) ≤ 1 - multiplier)
        linarith
      have hstep1 : s * multiplier
          + (if isDoneOpt (lookupKey c cur) then (1 : ℝ) else 0) * (1 - multiplier) ≤ 1 := by
        have := mul_nonneg (by linarith : (0 : ℝ) ≤ 1 - s) hm0.le
        have := mul_nonneg (by linarith : (0 : ℝ) ≤
          1 - (if isDoneOpt (lookupKey c cur) then (1 : ℝ) else 0))
          (by linarith : (0 : ℝ) ≤ 1 - multiplier)
        nlinarith
      rcases List.mem_cons.mp hp with hp | hp
      · rw [hp]
        exact ⟨hstep0, hstep1⟩
      · exact ih (nextDay cur) _ hstep0 hstep1 p hp
    · rw [if_neg hc] at hp
      cases hp

/-- C8: every value of the computed score series lies in `[0, 1]`, for
any completion record and any current day. -/
theorem claim_C8 (c : CompletionRecord) (today : Habits.Date) (p : Habits.Date × ℝ)
    (hp : p ∈ allScores c today) : 0 ≤ p.2 ∧ p.2 ≤ 1 := by
  unfold allScores at hp
  cases h : sortKeys c with
  | nil =>
    rw [h] at hp
    cases hp
  | cons first rest =>
    rw [h] at hp
    exact scoreWalk_bounds c today _ first 0 (le_refl 0) (by norm_num) p hp

/-- Evaluation of the score series on Scenario A with today =
2024-01-01. -/
theorem allScores_scenarioA :
    allScores scenarioA ⟨2024, 1, 1⟩ =
      [(⟨2024, 1, 1⟩, 0 * multiplier + 1 * (1 - multiplier))] := by
  have h1 : sortKeys scenarioA = [⟨2024, 1, 1⟩] := by decide
  unfold allScores
  rw [h1]
  show scoreWalk scenarioA ⟨2024, 1, 1⟩ ⟨2024, 1, 1⟩ 0
    (rd ⟨2024, 1, 1⟩ + 1 - rd ⟨2024, 1, 1⟩) = _
  rw [show rd (⟨2024, 1, 1⟩ : Habits.Date) + 1 - rd (⟨2024, 1, 1⟩ : Habits.Date) = 1 by omega]
  simp only [scoreWalk, le_refl, if_true]
  norm_num [scenarioA, isDoneOpt, isDone]

/-- C8 witness: the singleton series of Scenario A has its value in
`[0, 1]`. -/
theorem claim_C8_witness :
    0 ≤ ((0 : ℝ) * multiplier + 1 * (1 - multiplier)) ∧
      ((0 : ℝ) * multiplier + 1 * (1 - multiplier)) ≤ 1 :=
  claim_C8 scenarioA ⟨2024, 1, 1⟩ (⟨2024, 1, 1⟩, 0 * multiplier + 1 * (1 - multiplier))
    (by rw [allScores_scenarioA]; exact List.mem_singleton.mpr rfl)

/-! ## Claim C1: the score series -/

theorem scoreWalk_length (c : CompletionRecord) (today : Habits.Date) :
    ∀ (fuel : ℕ) (cur : Habits.Date) (s : ℝ), cur.Valid → rd cur + fuel = rd today + 1 →
      (scoreWalk c today cur s fuel).length = fuel := by
  intro fuel
  induction fuel with
  | zero => intro cur s _ _; rfl
  | succ n ih =>
    intro cur s hcv heq
    simp only [scoreWalk]
    rw [if_pos (by omega)]
    have hn := rd_nextDay cur hcv
    simp only [List.length_cons]
    rw [ih (nextDay cur) _ hn.2 (by rw [hn.1]; omega)]

theorem scoreWalk_head_fst (c : CompletionRecord) (today : Habits.Date) (fuel : ℕ)
    (cur : Habits.Date) (s : ℝ) (p : Habits.Date × ℝ)
    (hp : (scoreWalk c today cur s fuel).head? = some p) : p.1 = cur := by
  cases fuel with
  | zero => simp [scoreWalk] at hp
  | succ n =>
    simp only [scoreWalk] at hp
    by_cases hc : rd cur ≤ rd today
    · rw [if_pos hc] at hp
      simp only [List.head?_cons, Option.some.injEq] at hp
      rw [← hp]
    · rw [if_neg hc] at hp
      simp at hp

theorem scoreWalk_chain (c : CompletionRecord) (today : Habits.Date) :
    ∀ (fuel : ℕ) (cur : Habits.Date) (s : ℝ), cur.Valid →
      List.Chain' (fun a b : Habits.Date × ℝ => rd b.1 = rd a.1 + 1)
        (scoreWalk c today cur s fuel) := by
  intro fuel
  induction fuel with
  | zero => intro cur s _; simp [scoreWalk]
  | succ n ih =>
    intro cur s hcv
    simp only [scoreWalk]
    by_cases hc : rd cur ≤ rd today
    · rw [if_pos hc]
      have hn := rd_nextDay cur hcv
      rw [List.chain'_cons']
      refine ⟨?_, ih (nextDay cur) _ hn.2⟩
      intro b hb
      have hfst := scoreWalk_head_fst c today n (nextDay cur) _ b hb
      rw [hfst, hn.1]
    · rw [if_neg hc]
      simp

/-- C1: for a record with at least one key whose earliest key is not in
the future, the score series starts at the earliest key with value
`checkmark * (1 - multiplier)` (the recurrence seeded with 0), walks
every calendar day in order (consecutive days, one entry per day from
the earliest key through today), and on Scenario A
(`{2024-01-01: true}`, today 2024-01-01) the reported percentage score
is `round((1 - 0.5^(1/13)) * 100) = 5`. -/
theorem claim_C1 (c : CompletionRecord) (today first : Habits.Date)
    (rest : List Habits.Date) (hs : sortKeys c = first :: rest) (hf : rd first ≤ rd today)
    (hv : ∀ k ∈ keysOf c, k.Valid) :
    (allScores c today).head? =
      some (first, (if isDoneOpt (lookupKey c first) then (1 : ℝ) else 0) * (1 - multiplier)) ∧
    (allScores c today).length = rd today + 1 - rd first ∧
    List.Chain' (fun a b : Habits.Date × ℝ => rd b.1 = rd a.1 + 1) (allScores c today) ∧
    score scenarioA ⟨2024, 1, 1⟩ = 5 := by
  have hmem : first ∈ keysOf c := by
    have hperm := List.perm_insertionSort dateLe (keysOf c)
    have hmem2 : first ∈ sortKeys c := by
      rw [hs]
      exact List.mem_cons_self _ _
    exact hperm.mem_iff.mp hmem2
  have hfv : first.Valid := hv first hmem
  have hall : allScores c today
      = scoreWalk c today first 0 (rd today + 1 - rd first) := by
    unfold allScores
    rw [hs]
  obtain ⟨n, hn⟩ : ∃ n, rd today + 1 - rd first = n + 1 := ⟨rd today - rd first, by omega⟩
  refine ⟨?_, ?_, ?_, ?_⟩
  · rw [hall, hn]
    simp only [scoreWalk]
    rw [if_pos hf]
    simp only [List.head?_cons, Option.some.injEq]
    rw [zero_mul, zero_add]
  · rw [hall]
    exact scoreWalk_length c today _ first 0 hfv (by omega)
  · rw [hall]
    exact scoreWalk_chain c today _ first 0 hfv
  · unfold score
    rw [allScores_scenarioA]
    have hlook : lookupKey [((⟨2024, 1, 1⟩ : Habits.Date),
        (0 : ℝ) * multiplier + 1 * (1 - multiplier))] ⟨2024, 1, 1⟩
        = some ((0 : ℝ) * multiplier + 1 * (1 - multiplier)) := by
      simp
    rw [hlook]
    simp only [Option.getD_some]
    rw [show ((0 : ℝ) * multiplier + 1 * (1 - multiplier)) = 1 - multiplier by ring]
    exact round_score_one

/-- C1 witness: Scenario A itself discharges the hypotheses. -/
theorem claim_C1_witness :
    (allScores scenarioA ⟨2024, 1, 1⟩).head? =
      some ((⟨2024, 1, 1⟩ : Habits.Date),
        (if isDoneOpt (lookupKey scenarioA ⟨2024, 1, 1⟩) then (1 : ℝ) else 0)
          * (1 - multiplier)) ∧
    score scenarioA ⟨2024, 1, 1⟩ = 5 := by
  have h := claim_C1 scenarioA ⟨2024, 1, 1⟩ ⟨2024, 1, 1⟩ [] (by decide) (by decide) (by decide)
  exact ⟨h.1, h.2.2.2⟩

/-! ## Claim C5: the history aggregator emits a dense series -/

/-- C5 fails as stated: a single done completion in 1999 with today
2000-01-10 yields one YEARLY bucket (the year-2000 safety clamp), not
the two calendar years 1999..2000 of the claimed computed start. -/
theorem claim_C5_counterexample :
    (historyData .YEARLY [(⟨1999, 6, 15⟩, .bool true)] ⟨2000, 1, 10⟩).length = 1 ∧
    ¬ ((historyData .YEARLY [(⟨1999, 6, 15⟩, .bool true)] ⟨2000, 1, 10⟩).length
        = 2000 - 1999 + 1) := by
  constructor
  · decide
  · decide

theorem quarterWalk_stop (dates : List Habits.Date) (endY endQ y q fuel : ℕ)
    (h : ¬ (y < endY ∨ (y = endY ∧ q ≤ endQ))) :
    quarterWalk dates endY endQ y q fuel = [] := by
  cases fuel with
  | zero => rfl
  | succ n =>
    simp only [quarterWalk]
    rw [if_neg h]

theorem quarterWalk_length (dates : List Habits.Date) (endY endQ : ℕ) :
    ∀ (fuel y q : ℕ), 1 ≤ q → q ≤ 4 → 1 ≤ endQ → endQ ≤ 4 →
      (y < endY ∨ (y = endY ∧ q ≤ endQ)) →
      4 * endY + endQ + 1 - (4 * y + q) ≤ fuel →
      (quarterWalk dates endY endQ y q fuel).length
        = 4 * endY + endQ + 1 - (4 * y + q) := by
  intro fuel
  induction fuel with
  | zero =>
    intro y q h1 h2 he1 he2 h3 h4
    omega
  | succ n ih =>
    intro y q h1 h2 he1 he2 h3 h4
    simp only [quarterWalk]
    rw [if_pos h3]
    simp only [List.length_cons]
    by_cases hdone : y = endY ∧ q = endQ
    · obtain ⟨hy, hq⟩ := hdone
      by_cases hq4 : q < 4
      · rw [if_pos hq4, quarterWalk_stop _ _ _ _ _ _ (by omega)]
        simp only [List.length_nil]
        omega
      · rw [if_neg hq4, quarterWalk_stop _ _ _ _ _ _ (by omega)]
        simp only [List.length_nil]
        omega
    · by_cases hq4 : q < 4
      · rw [if_pos hq4,
          ih y (q + 1) (by omega) (by omega) he1 he2 (by omega) (by omega)]
        omega
      · rw [if_neg hq4,
          ih (y + 1) 1 (by omega) (by omega) he1 he2 (by omega) (by omega)]
        omega

/-- The month-first comparison of the MONTHLY loop is the
lexicographic year-month comparison. -/
theorem rd_monthFirst_le_iff (y m : ℕ) (t : Habits.Date) (ht : t.Valid) (hy : 1 ≤ y)
    (hm1 : 1 ≤ m) (hm2 : m ≤ 12) :
    rd ⟨y, m, 1⟩ ≤ rd t ↔ (y < t.year ∨ (y = t.year ∧ m ≤ t.month)) := by
  obtain ⟨t1, t2, t3, t4, t5⟩ := valid_parts t ht
  have hv : (⟨y, m, 1⟩ : Habits.Date).Valid :=
    valid_mk _ _ _ hy hm1 hm2 (le_refl 1) (daysInMonthL_pos _ m (by omega) hm1)
  constructor
  · intro h
    by_contra hc
    push_neg at hc
    have hlt : rd t < rd ⟨y, m, 1⟩ := by
      apply rd_lt_of_lex t ⟨y, m, 1⟩ ht hv
      show t.year < y ∨ (t.year = y ∧ (t.month < m ∨ (t.month = m ∧ t.day < 1)))
      by_cases hyy : t.year = y
      · right
        refine ⟨hyy, Or.inl ?_⟩
        have := hc.2 hyy.symm
        omega
      · left
        have := hc.1
        omega
    omega
  · intro h
    rcases h with h | ⟨h1, h2⟩
    · refine (rd_lt_of_lex ⟨y, m, 1⟩ t hv ht (Or.inl ?_)).le
      show y < t.year
      exact h
    · by_cases hm' : m = t.month
      · rw [h1, hm']
        have e1 := rd_mk t.year t.month 1
        have e2 := rd_def t
        omega
      · refine (rd_lt_of_lex ⟨y, m, 1⟩ t hv ht (Or.inr ⟨h1, Or.inl ?_⟩)).le
        show m < t.month
        omega

theorem monthWalk_stop (dates : List Habits.Date) (today : Habits.Date) (y m fuel : ℕ)
    (h : ¬ rd ⟨y, m, 1⟩ ≤ rd today) : monthWalk dates today y m fuel = [] := by
  cases fuel with
  | zero => rfl
  | succ n =>
    simp only [monthWalk]
    rw [if_neg h]

theorem monthWalk_length (dates : List Habits.Date) (today : Habits.Date)
    (ht : today.Valid) :
    ∀ (fuel y m : ℕ), 1 ≤ y → 1 ≤ m → m ≤ 12 →
      (y < today.year ∨ (y = today.year ∧ m ≤ today.month)) →
      12 * today.year + today.month + 1 - (12 * y + m) ≤ fuel →
      (monthWalk dates today y m fuel).length
        = 12 * today.year + today.month + 1 - (12 * y + m) := by
  obtain ⟨t1, t2, t3, t4, t5⟩ := valid_parts today ht
  intro fuel
  induction fuel with
  | zero =>
    intro y m h1 h2 h3 h4 h5
    omega
  | succ n ih =>
    intro y m h1 h2 h3 h4 h5
    simp only [monthWalk]
    rw [if_pos ((rd_monthFirst_le_iff y m today ht h1 h2 h3).mpr h4)]
    simp only [List.length_cons]
    by_cases hdone : y = today.year ∧ m = today.month
    · obtain ⟨hy, hm⟩ := hdone
      by_cases hm12 : m < 12
      · rw [if_pos hm12, monthWalk_stop _ _ _ _ _ (fun hcon => by
          have := (rd_monthFirst_le_iff y (m + 1) today ht h1 (by omega) (by omega)).mp hcon
          omega)]
        simp only [List.length_nil]
        omega
      · rw [if_neg hm12, monthWalk_stop _ _ _ _ _ (fun hcon => by
          have := (rd_monthFirst_le_iff (y + 1) 1 today ht (by omega) (by omega)
            (by omega)).mp hcon
          omega)]
        simp only [List.length_nil]
        omega
    · by_cases hm12 : m < 12
      · rw [if_pos hm12, ih y (m + 1) (by omega) (by omega) (by omega) (by omega) (by omega)]
        omega
      · rw [if_neg hm12, ih (y + 1) 1 (by omega) (by omega) (by omega) (by omega) (by omega)]
        omega

theorem weekWalk_stop (dates : List Habits.Date) (today cur : Habits.Date) (fuel : ℕ)
    (h : ¬ rd cur ≤ rd today) : weekWalk dates today cur fuel = [] := by
  cases fuel with
  | zero => rfl
  | succ n =>
    simp only [weekWalk]
    rw [if_neg h]

theorem weekWalk_length (dates : List Habits.Date) (today : Habits.Date) :
    ∀ (fuel : ℕ) (cur : Habits.Date), cur.Valid → rd cur ≤ rd today →
      rd today + 1 - rd cur ≤ 7 * fuel →
      (weekWalk dates today cur fuel).length = (rd today - rd cur) / 7 + 1 := by
  intro fuel
  induction fuel with
  | zero =>
    intro cur _ hc hf
    omega
  | succ n ih =>
    intro cur hv hc hf
    simp only [weekWalk]
    rw [if_pos hc]
    have ha := rd_addDays 7 cur hv
    by_cases hnext : rd (addDays cur 7) ≤ rd today
    · simp only [List.length_cons]
      rw [ih (addDays cur 7) ha.2 hnext (by rw [ha.1]; omega)]
      rw [ha.1]
      omega
    · rw [weekWalk_stop _ _ _ _ hnext]
      simp only [List.length_cons, List.length_nil]
      rw [ha.1] at hnext
      omega

theorem weeklyStart_nil (c : CompletionRecord) (today : Habits.Date)
    (h : sortedDoneKeys c = []) :
    weeklyStart c today = mondayOnOrBefore (yearsBefore 1 today) := by
  simp only [weeklyStart, h]

theorem weeklyStart_cons (c : CompletionRecord) (today : Habits.Date) (f : Habits.Date)
    (rest : List Habits.Date) (h : sortedDoneKeys c = f :: rest) :
    weeklyStart c today = mondayOnOrBefore
      (if rd f < rd (yearsBefore 1 today) then f else yearsBefore 1 today) := by
  simp only [weeklyStart, h]

theorem mem_keys_of_mem_sortedDone (c : CompletionRecord) (f : Habits.Date)
    (h : f ∈ sortedDoneKeys c) : f ∈ keysOf c := by
  unfold sortedDoneKeys at h
  have h2 : f ∈ doneKeys c := (List.perm_insertionSort dateLe (doneKeys c)).mem_iff.mp h
  unfold doneKeys at h2
  exact (List.mem_filter.mp h2).1

/-- C5 (amended): for a record of valid modern day-keys none of which
is in the future, each history granularity emits exactly one bucket
per calendar period from the computed start (clamped to no earlier
than the year 2000 for the MONTHLY / QUARTERLY / YEARLY branches)
through today, inclusive. -/
theorem claim_C5_amended (c : CompletionRecord) (today : Habits.Date) (ht : today.Valid)
    (hty : 2000 ≤ today.year)
    (hk : ∀ k ∈ keysOf c, k.Valid ∧ 3 ≤ k.year ∧ rd k ≤ rd today) :
    ∀ g, (historyData g c today).length = specPeriods g c today := by
  obtain ⟨t1, t2, t3, t4, t5⟩ := valid_parts today ht
  have hsy : 2000 ≤ startYearOf c today ∧ startYearOf c today ≤ today.year := by
    unfold startYearOf
    cases hsd : sortedDoneKeys c with
    | nil =>
      constructor
      · exact le_max_right _ _
      · simp only [max_def]
        split
        · omega
        · omega
    | cons f rest =>
      have hf : f ∈ keysOf c := mem_keys_of_mem_sortedDone c f (by
        rw [hsd]
        exact List.mem_cons_self _ _)
      have hfk := hk f hf
      have hyle := year_le_of_rd_le f today hfk.1 ht hfk.2.2
      constructor
      · exact le_max_right _ _
      · simp only [max_def]
        split
        · omega
        · omega
  intro g
  cases g with
  | YEARLY =>
    show (yearlyData c today).length = _
    unfold yearlyData specPeriods
    simp only [List.length_map, List.length_range]
  | QUARTERLY =>
    show (quarterlyData c today).length = _
    simp only [quarterlyData, specPeriods]
    rw [quarterWalk_length (sortedDoneKeys c) today.year ((today.month - 1) / 3 + 1) _
      (startYearOf c today) 1 (le_refl 1) (by omega) (by omega) (by omega)
      (by omega) (by omega)]
    omega
  | MONTHLY =>
    show (monthlyData c today).length = _
    simp only [monthlyData, specPeriods]
    rw [monthWalk_length (sortedDoneKeys c) today ht _ (startYearOf c today) 1
      (by omega) (by omega) (by omega) (by omega) (by omega)]
    omega
  | WEEKLY =>
    show (weeklyData c today).length = _
    have hbv := yearsBefore_valid 1 today ht (by omega)
    have hblt := rd_yearsBefore_lt 1 today ht (le_refl 1) (by omega)
    have hbbig : 400 ≤ rd (yearsBefore 1 today) := by
      have hge := rd_ge_year (yearsBefore 1 today) hbv.1
      rw [hbv.2] at hge
      omega
    have hws : (weeklyStart c today).Valid ∧ rd (weeklyStart c today) ≤ rd today := by
      cases hsd : sortedDoneKeys c with
      | nil =>
        rw [weeklyStart_nil c today hsd]
        have hm := rd_mondayOnOrBefore (yearsBefore 1 today) hbv.1 hbbig
        exact ⟨hm.2.1, by rw [hm.1]; omega⟩
      | cons f rest =>
        rw [weeklyStart_cons c today f rest hsd]
        have hf : f ∈ keysOf c := mem_keys_of_mem_sortedDone c f (by
          rw [hsd]
          exact List.mem_cons_self _ _)
        have hfk := hk f hf
        by_cases hflt : rd f < rd (yearsBefore 1 today)
        · rw [if_pos hflt]
          have hfbig : 400 ≤ rd f := by
            have hge := rd_ge_year f hfk.1
            omega
          have hm := rd_mondayOnOrBefore f hfk.1 hfbig
          exact ⟨hm.2.1, by rw [hm.1]; omega⟩
        · rw [if_neg hflt]
          have hm := rd_mondayOnOrBefore (yearsBefore 1 today) hbv.1 hbbig
          exact ⟨hm.2.1, by rw [hm.1]; omega⟩
    show (weekWalk (sortedDoneKeys c) today (weeklyStart c today)
      (rd today + 1 - rd (weeklyStart c today))).length = _
    simp only [specPeriods]
    rw [weekWalk_length (sortedDoneKeys c) today _ (weeklyStart c today) hws.1 hws.2
      (by omega)]

/-- C5 witness at a concrete record and today. -/
theorem claim_C5_amended_witness :
    (historyData .MONTHLY [(⟨2024, 2, 10⟩, .bool true)] ⟨2024, 5, 15⟩).length
      = specPeriods .MONTHLY [(⟨2024, 2, 10⟩, .bool true)] ⟨2024, 5, 15⟩ :=
  claim_C5_amended [(⟨2024, 2, 10⟩, .bool true)] ⟨2024, 5, 15⟩ (by decide) (by decide)
    (by decide) .MONTHLY

/-! ## Claim C6: the calendar grid -/

theorem buildWeeks_stop (endD cur : Habits.Date) (fuel : ℕ) (h : ¬ rd cur ≤ rd endD) :
    buildWeeks endD cur fuel = [] := by
  cases fuel with
  | zero => rfl
  | succ n =>
    simp only [buildWeeks]
    rw [if_neg h]

theorem week7_chain (cur : Habits.Date) (h : cur.Valid) :
    List.Chain' (fun a b => rd b = rd a + 1) (week7 cur) := by
  have e1 := rd_addDays 1 cur h
  have e2 := rd_addDays 2 cur h
  have e3 := rd_addDays 3 cur h
  have e4 := rd_addDays 4 cur h
  have e5 := rd_addDays 5 cur h
  have e6 := rd_addDays 6 cur h
  simp only [week7, List.chain'_cons, List.chain'_singleton, and_true]
  refine ⟨?_, ?_, ?_, ?_, ?_, ?_⟩ <;> omega

theorem week7_head (cur : Habits.Date) : (week7 cur).head? = some cur := rfl

theorem week7_getLast (cur : Habits.Date) :
    (week7 cur).getLast? = some (addDays cur 6) := rfl

/-- Structure of the grid walk: consecutive days, starting at the
aligned start, ending on or after the end bound, in weeks of 7. -/
theorem buildWeeks_props (endD : Habits.Date) :
    ∀ (fuel : ℕ) (cur : Habits.Date), cur.Valid → rd cur ≤ rd endD →
      rd endD + 1 - rd cur ≤ 7 * fuel →
      List.Chain' (fun a b => rd b = rd a + 1) (buildWeeks endD cur fuel).flatten ∧
      (buildWeeks endD cur fuel).flatten.head? = some cur ∧
      (∃ last, (buildWeeks endD cur fuel).flatten.getLast? = some last ∧
        rd endD ≤ rd last) ∧
      (∀ w ∈ buildWeeks endD cur fuel, w.length = 7) := by
  intro fuel
  induction fuel with
  | zero =>
    intro cur _ hc hf
    exfalso
    omega
  | succ n ih =>
    intro cur hv hc hf
    simp only [buildWeeks]
    rw [if_pos hc]
    have ha := rd_addDays 7 cur hv
    have ha6 := rd_addDays 6 cur hv
    by_cases hnext : rd (addDays cur 7) ≤ rd endD
    · obtain ⟨ch, hd, ⟨last, hl, hle⟩, hlen⟩ := ih (addDays cur 7) ha.2 hnext
        (by rw [ha.1]; omega)
      refine ⟨?_, ?_, ⟨last, ?_, hle⟩, ?_⟩
      · rw [List.flatten_cons, List.chain'_append]
        refine ⟨week7_chain cur hv, ch, ?_⟩
        intro x hx y hy
        rw [week7_getLast] at hx
        rw [hd] at hy
        simp only [Option.mem_def, Option.some.injEq] at hx hy
        rw [← hx, ← hy, ha.1, ha6.1]
      · rw [List.flatten_cons, List.head?_append, week7_head]
        rfl
      · rw [List.flatten_cons, List.getLast?_append, hl]
        rfl
      · intro w hw
        rcases List.mem_cons.mp hw with hw | hw
        · rw [hw]
          rfl
        · exact hlen w hw
    · rw [buildWeeks_stop _ _ _ hnext]
      rw [ha.1] at hnext
      refine ⟨?_, ?_, ⟨addDays cur 6, ?_, ?_⟩, ?_⟩
      · simp only [List.flatten_cons, List.flatten_nil, List.append_nil]
        exact week7_chain cur hv
      · simp only [List.flatten_cons, List.flatten_nil, List.append_nil, week7_head]
      · simp only [List.flatten_cons, List.flatten_nil, List.append_nil, week7_getLast]
      · rw [ha6.1]
        omega
      · intro w hw
        rcases List.mem_cons.mp hw with hw | hw
        · rw [hw]
          rfl
        · cases hw

theorem rangeStart_nil (c : CompletionRecord) (today : Habits.Date)
    (h : sortKeys c = []) : rangeStart c today = yearsBefore 1 today := by
  simp only [rangeStart, h]

theorem rangeStart_cons (c : CompletionRecord) (today : Habits.Date) (first : Habits.Date)
    (rest : List Habits.Date) (h : sortKeys c = first :: rest) :
    rangeStart c today =
      (if rd (if rd first < rd (yearsBefore 1 today) then first else yearsBefore 1 today)
          < rd (yearsBefore 3 today) then yearsBefore 3 today
       else (if rd first < rd (yearsBefore 1 today) then first
         else yearsBefore 1 today)) := by
  simp only [rangeStart, h]

theorem mem_keys_of_mem_sortKeys (c : CompletionRecord) (f : Habits.Date)
    (h : f ∈ sortKeys c) : f ∈ keysOf c :=
  (List.perm_insertionSort dateLe (keysOf c)).mem_iff.mp h

/-- The computed range start is valid and lies between the 3-year
clamp and today. -/
theorem rangeStart_facts (c : CompletionRecord) (today : Habits.Date) (ht : today.Valid)
    (hty : 2000 ≤ today.year) (hk : ∀ k ∈ keysOf c, k.Valid) :
    (rangeStart c today).Valid ∧ rd (yearsBefore 3 today) ≤ rd (rangeStart c today) ∧
      rd (rangeStart c today) ≤ rd today := by
  have h1v := yearsBefore_valid 1 today ht (by omega)
  have h3v := yearsBefore_valid 3 today ht (by omega)
  have h1lt := rd_yearsBefore_lt 1 today ht (le_refl 1) (by omega)
  have h3lt := rd_yearsBefore_lt 3 today ht (by omega) (by omega)
  have h31 : rd (yearsBefore 3 today) ≤ rd (yearsBefore 1 today) := by
    refine (rd_lt_of_year_lt _ _ h3v.1 h1v.1 ?_).le
    rw [h3v.2, h1v.2]
    omega
  cases hs : sortKeys c with
  | nil =>
    rw [rangeStart_nil c today hs]
    exact ⟨h1v.1, h31, h1lt.le⟩
  | cons first rest =>
    have hfv : first.Valid := hk first (mem_keys_of_mem_sortKeys c first (by
      rw [hs]
      exact List.mem_cons_self _ _))
    rw [rangeStart_cons c today first rest hs]
    have hs1 : (if rd first < rd (yearsBefore 1 today) then first
        else yearsBefore 1 today).Valid ∧
        rd (if rd first < rd (yearsBefore 1 today) then first
          else yearsBefore 1 today) ≤ rd today := by
      by_cases hc1 : rd first < rd (yearsBefore 1 today)
      · rw [if_pos hc1]
        exact ⟨hfv, by omega⟩
      · rw [if_neg hc1]
        exact ⟨h1v.1, h1lt.le⟩
    by_cases hc2 : rd (if rd first < rd (yearsBefore 1 today) then first
        else yearsBefore 1 today) < rd (yearsBefore 3 today)
    · rw [if_pos hc2]
      exact ⟨h3v.1, le_refl _, h3lt.le⟩
    · rw [if_neg hc2]
      exact ⟨hs1.1, by omega, hs1.2⟩

/-- C6: the calendar grid consists of weeks of exactly 7 days, jointly
forming one run of consecutive calendar days; it starts at the Monday
on or before the computed range start (at most 6 days earlier) and
ends at least 14 days past today; the range start is one year back for
an empty record, and in general the earliest key clamped between three
years back and one year back. -/
theorem claim_C6 (c : CompletionRecord) (today : Habits.Date) (ht : today.Valid)
    (hty : 2000 ≤ today.year) (hk : ∀ k ∈ keysOf c, k.Valid) :
    (∀ w ∈ calendarWeeks c today, w.length = 7) ∧
    List.Chain' (fun a b => rd b = rd a + 1) (calendarWeeks c today).flatten ∧
    (calendarWeeks c today).flatten.head?
      = some (mondayOnOrBefore (rangeStart c today)) ∧
    rd (mondayOnOrBefore (rangeStart c today)) % 7 = 1 ∧
    rd (rangeStart c today) ≤ rd (mondayOnOrBefore (rangeStart c today)) + 6 ∧
    rd (mondayOnOrBefore (rangeStart c today)) ≤ rd (rangeStart c today) ∧
    (∃ last, (calendarWeeks c today).flatten.getLast? = some last ∧
      rd today + 14 ≤ rd last) ∧
    (sortKeys c = [] → rangeStart c today = yearsBefore 1 today) ∧
    (∀ first rest, sortKeys c = first :: rest →
      rd (rangeStart c today)
        = max (min (rd (yearsBefore 1 today)) (rd first)) (rd (yearsBefore 3 today))) := by
  obtain ⟨hrv, hr3, hrt⟩ := rangeStart_facts c today ht hty hk
  have h3v := yearsBefore_valid 3 today ht (by omega)
  have hbig : 400 ≤ rd (rangeStart c today) := by
    have hge := rd_ge_year (yearsBefore 3 today) h3v.1
    rw [h3v.2] at hge
    omega
  obtain ⟨hm1, hmv, hm7⟩ := rd_mondayOnOrBefore (rangeStart c today) hrv hbig
  have hdel := mondayDelta_le (rangeStart c today)
  have hend := rd_addDays 14 today ht
  have hbound := rd_yearsBefore_ge today ht (by omega)
  have hcond : rd (mondayOnOrBefore (rangeStart c today)) ≤ rd (addDays today 14) := by
    rw [hend.1, hm1]
    omega
  have hfuel : rd (addDays today 14) + 1 - rd (mondayOnOrBefore (rangeStart c today))
      ≤ 7 * 1000 := by
    rw [hend.1, hm1]
    omega
  obtain ⟨hch, hhead, hlast, hlen⟩ := buildWeeks_props (addDays today 14) 1000
    (mondayOnOrBefore (rangeStart c today)) hmv hcond hfuel
  unfold calendarWeeks
  refine ⟨hlen, hch, hhead, hm7, by omega, by omega, ?_, ?_, ?_⟩
  · obtain ⟨last, hl1, hl2⟩ := hlast
    refine ⟨last, hl1, ?_⟩
    rw [hend.1] at hl2
    omega
  · exact fun h => rangeStart_nil c today h
  · intro first rest hs
    rw [rangeStart_cons c today first rest hs]
    split_ifs <;> omega

/-- C6 witness: the empty record with today 2024-05-15. -/
theorem claim_C6_witness :
    (∀ w ∈ calendarWeeks [] ⟨2024, 5, 15⟩, w.length = 7) ∧
    (calendarWeeks [] ⟨2024, 5, 15⟩).flatten.head?
      = some (mondayOnOrBefore (rangeStart [] ⟨2024, 5, 15⟩)) := by
  have h := claim_C6 [] ⟨2024, 5, 15⟩ (by decide) (by decide)
    (fun k hk => absurd hk (by simp [keysOf]))
  exact ⟨h.1, h.2.2.1⟩

end Habits
